import Mathlib

/-!
Verification development for `src/auto_scheduler/feature.cc` (per-store feature
extraction for the auto-scheduler cost model).

The C++ source is embedded shallowly:

 - `PExpr`/`PExprList` model TIR `PrimExpr` trees (binary arithmetic and logic
   nodes, select, calls, buffer loads).  Machine floats of the original are
   idealized as exact rationals `ℚ`; `int`/`int64_t` values as `ℤ`.
 - the expression visitors (`MathOpCounter`, `BufferAccessExtractor`,
   `CoefficientExtractor`) become structurally recursive functions that thread
   their mutable state; handler order (children before / after the node rule)
   follows the C++ `StmtExprVisitor` call sites.
 - the arith `Analyzer` is an external collaborator of the file (it lives
   outside `feature.cc`), so `const_int_bound` enters as a function parameter
   mapping a binding environment and an expression to an integer interval.
 - `std::log2` is likewise not representable in `ℚ`: the emitted log-space
   lists are obtained through a function parameter standing for `log2`;
   concrete instantiations use `Nat.log2` at inputs where it coincides with
   the real `log2` (exact powers of two).
-/

namespace TvmFeat

/-! ## Expressions (the IR view used by feature.cc) -/

/-- Binary operator kinds of the TIR expression nodes that `MathOpCounter`
dispatches on (`AddNode` … `GENode`, plus `AndNode`/`OrNode`). -/
inductive BinKind where
  | addk | subk | mulk | divk | modk | fdivk | fmodk
  | maxk | mink | eqk | nek | ltk | lek | gtk | gek
  | andk | ork
deriving DecidableEq, Repr

mutual
/-- Shallow embedding of `PrimExpr`.  `evar` is a scalar variable (loop vars
are integer typed); `call` carries the result dtype flag and the effect kind
(pure or annotation vs impure) of its callee; `load` is `BufferLoadNode` with
the buffer's dtype flag and identity. -/
inductive PExpr where
  | intImm (v : ℤ)
  | floatImm
  | evar (id : ℕ)
  | binop (k : BinKind) (a b : PExpr)
  | lnot (a : PExpr)
  | select (c t f : PExpr)
  | call (isFloat : Bool) (isPureK : Bool) (args : PExprList)
  | load (isFloat : Bool) (buf : ℕ) (indices : PExprList)

/-- Argument / index lists of expression nodes (nested occurrence of
`Array<PrimExpr>` fields). -/
inductive PExprList where
  | nil
  | cons (head : PExpr) (tail : PExprList)
end

/-- Convert a node-field expression list to a plain `List`. -/
def PExprList.toList : PExprList → List PExpr
  | .nil => []
  | .cons e es => e :: es.toList

/-- Result dtype of an expression being floating point.  A binary arithmetic
node has its operands' dtype, comparisons and logic are boolean. -/
def isFloatE : PExpr → Bool
  | .intImm _ => false
  | .floatImm => true
  | .evar _ => false
  | .binop k a _ =>
    match k with
    | .addk | .subk | .mulk | .divk | .modk | .fdivk | .fmodk | .maxk | .mink => isFloatE a
    | _ => false
  | .lnot _ => false
  | .select _ t _ => isFloatE t
  | .call f _ _ => f
  | .load f _ _ => f

mutual
/-- The `VarInExpr` helper of feature.cc: whether variable `v` occurs in the
expression (a `PostOrderVisit` looking for the `VarNode`). -/
def varInExpr (v : ℕ) : PExpr → Bool
  | .intImm _ => false
  | .floatImm => false
  | .evar id => id = v
  | .binop _ a b => varInExpr v a || varInExpr v b
  | .lnot a => varInExpr v a
  | .select c t f => varInExpr v c || varInExpr v t || varInExpr v f
  | .call _ _ args => varInList v args
  | .load _ _ idxs => varInList v idxs

/-- List part of `varInExpr`. -/
def varInList (v : ℕ) : PExprList → Bool
  | .nil => false
  | .cons e es => varInExpr v e || varInList v es
end

/-! ## MathOpCounter -/

/-- Per-category op counters of `MathOpCounter`. -/
structure MathOps where
  floatMad : ℕ
  floatAddsub : ℕ
  floatMul : ℕ
  floatDivmod : ℕ
  floatCmp : ℕ
  floatMathFunc : ℕ
  floatOtherFunc : ℕ
  intMad : ℕ
  intAddsub : ℕ
  intMul : ℕ
  intDivmod : ℕ
  intCmp : ℕ
  intMathFunc : ℕ
  intOtherFunc : ℕ
  boolOp : ℕ
  selectOp : ℕ
deriving DecidableEq, Repr

/-- All-zero initial counter state. -/
def MathOps.zero : MathOps := ⟨0, 0, 0, 0, 0, 0, 0, 0, 0, 0, 0, 0, 0, 0, 0, 0⟩

/-- One binary-node increment of `MathOpCounter`, dispatching on the operator
kind and on whether the left operand's dtype is float. -/
def mocBin (st : MathOps) (k : BinKind) (aFloat : Bool) : MathOps :=
  match k with
  | .addk | .subk =>
    if aFloat then { st with floatAddsub := st.floatAddsub + 1 }
    else { st with intAddsub := st.intAddsub + 1 }
  | .mulk =>
    if aFloat then { st with floatMul := st.floatMul + 1 }
    else { st with intMul := st.intMul + 1 }
  | .divk | .modk | .fdivk | .fmodk =>
    if aFloat then { st with floatDivmod := st.floatDivmod + 1 }
    else { st with intDivmod := st.intDivmod + 1 }
  | .maxk | .mink | .eqk | .nek | .ltk | .lek | .gtk | .gek =>
    if aFloat then { st with floatCmp := st.floatCmp + 1 }
    else { st with intCmp := st.intCmp + 1 }
  | .andk | .ork => { st with boolOp := st.boolOp + 1 }

/-- Call-node increment of `MathOpCounter` (pure / annotation callees count as
math funcs of the call's own dtype, the rest as other funcs). -/
def mocCall (st : MathOps) (isFloat : Bool) (isPureK : Bool) : MathOps :=
  if isPureK then
    if isFloat then { st with floatMathFunc := st.floatMathFunc + 1 }
    else { st with intMathFunc := st.intMathFunc + 1 }
  else
    if isFloat then { st with floatOtherFunc := st.floatOtherFunc + 1 }
    else { st with intOtherFunc := st.intOtherFunc + 1 }

mutual
/-- `MathOpCounter` walk over one expression, threading the counters. -/
def mocExpr (st : MathOps) : PExpr → MathOps
  | .intImm _ => st
  | .floatImm => st
  | .evar _ => st
  | .binop k a b => mocExpr (mocExpr (mocBin st k (isFloatE a)) a) b
  | .lnot a => mocExpr { st with boolOp := st.boolOp + 1 } a
  | .select c t f => mocExpr (mocExpr (mocExpr { st with selectOp := st.selectOp + 1 } c) t) f
  | .call isF isP args => mocList (mocCall st isF isP) args
  | .load _ _ idxs => mocList st idxs

/-- List part of the `MathOpCounter` walk. -/
def mocList (st : MathOps) : PExprList → MathOps
  | .nil => st
  | .cons e es => mocList (mocExpr st e) es
end

/-- Sum of the float categories, as used for `cur_compute_ops` in the
store visitor (`float_mad + float_addsub + … + float_other_func`). -/
def floatOpsSum (st : MathOps) : ℕ :=
  st.floatMad + st.floatAddsub + st.floatMul + st.floatDivmod + st.floatCmp +
    st.floatMathFunc + st.floatOtherFunc

/-! ## CoefficientExtractor -/

/-- Mutable state of `CoefficientExtractor`: the three `visited_*` flags and
the current `stride`. -/
structure CoefState where
  sawVar : Bool
  sawMul : Bool
  sawAdd : Bool
  stride : ℤ
deriving DecidableEq, Repr

/-- The `expr.as<IntImmNode>()` test used by the `MulNode` handler. -/
def constOf : PExpr → Option ℤ
  | .intImm v => some v
  | _ => none

mutual
/-- `CoefficientExtractor` visit: children first (the handlers call
`StmtExprVisitor::VisitExpr_` before their own rule), then the node rule for
`MulNode` / `AddNode` / `VarNode`. -/
def coefExpr (v : ℕ) (st : CoefState) : PExpr → CoefState
  | .intImm _ => st
  | .floatImm => st
  | .evar id => if id = v then ⟨true, st.sawMul, st.sawAdd, 2⟩ else st
  | .binop k a b =>
    let st1 := coefExpr v (coefExpr v st a) b
    match k with
    | .mulk =>
      if st1.sawVar && !st1.sawAdd then
        match constOf a with
        | some c => ⟨st1.sawVar, true, st1.sawAdd, c⟩
        | none =>
          match constOf b with
          | some c => ⟨st1.sawVar, true, st1.sawAdd, c⟩
          | none => st1
      else st1
    | .addk =>
      if st1.sawVar && !st1.sawMul then ⟨st1.sawVar, st1.sawMul, true, 1⟩ else st1
    | _ => st1
  | .lnot a => coefExpr v st a
  | .select c t f => coefExpr v (coefExpr v (coefExpr v st c) t) f
  | .call _ _ args => coefList v st args
  | .load _ _ idxs => coefList v st idxs

/-- List part of the `CoefficientExtractor` visit. -/
def coefList (v : ℕ) (st : CoefState) : PExprList → CoefState
  | .nil => st
  | .cons e es => coefList v (coefExpr v st e) es
end

/-- Initial extractor state (`visited_* = false`; the member `stride` of a
fresh extractor is zero-initialized; across reuses within `ComputeStride` the
stale member value is only ever returned when `visited_var` is false, in which
case the caller discards it, so resetting it here is observation-equivalent). -/
def coefInit : CoefState := ⟨false, false, false, 0⟩

/-- `ExtractCoefficient`: final state together with the returned coefficient
(`1` when the var was seen but neither the Mul nor the Add rule fired,
otherwise the recorded `stride`). -/
def extractCoefficientSt (e : PExpr) (v : ℕ) : CoefState :=
  coefExpr v coefInit e

/-- Value returned by `ExtractCoefficient`. -/
def extractCoefficient (e : PExpr) (v : ℕ) : ℤ :=
  let st := extractCoefficientSt e v
  if st.sawVar && !st.sawMul && !st.sawAdd then 1 else st.stride

mutual
/-- No `MulNode` anywhere in the expression has a constant-integer operand
(the condition under which the Mul rule of `CoefficientExtractor` can never
overwrite `stride`). -/
def noConstMul : PExpr → Bool
  | .intImm _ => true
  | .floatImm => true
  | .evar _ => true
  | .binop k a b =>
    (match k with
     | .mulk => (constOf a).isNone && (constOf b).isNone
     | _ => true) && noConstMul a && noConstMul b
  | .lnot a => noConstMul a
  | .select c t f => noConstMul c && noConstMul t && noConstMul f
  | .call _ _ args => noConstMulList args
  | .load _ _ idxs => noConstMulList idxs

/-- List part of `noConstMul`. -/
def noConstMulList : PExprList → Bool
  | .nil => true
  | .cons e es => noConstMul e && noConstMulList es
end

mutual
/-- If the target variable does not occur and `visited_var` is still false,
the `CoefficientExtractor` visit leaves its state unchanged. -/
theorem coefExpr_no_var (v : ℕ) (st : CoefState) (hv : st.sawVar = false) :
    ∀ e : PExpr, varInExpr v e = false → coefExpr v st e = st
  | .intImm _, _ => rfl
  | .floatImm, _ => rfl
  | .evar id, h => by
    simp only [varInExpr, decide_eq_false_iff_not] at h
    simp [coefExpr, h]
  | .binop k a b, h => by
    simp only [varInExpr, Bool.or_eq_false_iff] at h
    have ha := coefExpr_no_var v st hv a h.1
    have hb := coefExpr_no_var v st hv b h.2
    cases k <;> simp [coefExpr, ha, hb, hv]
  | .lnot a, h => by
    simp only [varInExpr] at h
    exact coefExpr_no_var v st hv a h
  | .select c t f, h => by
    simp only [varInExpr, Bool.or_eq_false_iff] at h
    rw [coefExpr, coefExpr_no_var v st hv c h.1.1, coefExpr_no_var v st hv t h.1.2,
      coefExpr_no_var v st hv f h.2]
  | .call _ _ args, h => by
    simp only [varInExpr] at h
    exact coefList_no_var v st hv args h
  | .load _ _ idxs, h => by
    simp only [varInExpr] at h
    exact coefList_no_var v st hv idxs h

/-- List part of `coefExpr_no_var`. -/
theorem coefList_no_var (v : ℕ) (st : CoefState) (hv : st.sawVar = false) :
    ∀ es : PExprList, varInList v es = false → coefList v st es = st
  | .nil, _ => rfl
  | .cons e es, h => by
    simp only [varInList, Bool.or_eq_false_iff] at h
    rw [coefList, coefExpr_no_var v st hv e h.1, coefList_no_var v st hv es h.2]
end

mutual
/-- Once the extractor state is `(saw_var, saw_mul, saw_add) = (T, T, F)`,
visiting any expression that avoids the variable and contains no
constant-operand multiplication leaves the state unchanged. -/
theorem coefExpr_stable (v : ℕ) (c : ℤ) :
    ∀ e : PExpr, varInExpr v e = false → noConstMul e = true →
      coefExpr v ⟨true, true, false, c⟩ e = ⟨true, true, false, c⟩
  | .intImm _, _, _ => rfl
  | .floatImm, _, _ => rfl
  | .evar id, h, _ => by
    simp only [varInExpr, decide_eq_false_iff_not] at h
    simp [coefExpr, h]
  | .binop k a b, h, hm => by
    simp only [varInExpr, Bool.or_eq_false_iff] at h
    simp only [noConstMul, Bool.and_eq_true] at hm
    have ha := coefExpr_stable v c a h.1 hm.1.2
    have hb := coefExpr_stable v c b h.2 hm.2
    cases k <;>
      simp_all [coefExpr, Option.isNone_iff_eq_none]
  | .lnot a, h, hm => by
    simp only [varInExpr] at h
    simp only [noConstMul] at hm
    exact coefExpr_stable v c a h hm
  | .select c0 t f, h, hm => by
    simp only [varInExpr, Bool.or_eq_false_iff] at h
    simp only [noConstMul, Bool.and_eq_true] at hm
    rw [coefExpr, coefExpr_stable v c c0 h.1.1 hm.1.1, coefExpr_stable v c t h.1.2 hm.1.2,
      coefExpr_stable v c f h.2 hm.2]
  | .call _ _ args, h, hm => by
    simp only [varInExpr] at h
    simp only [noConstMul] at hm
    exact coefList_stable v c args h hm
  | .load _ _ idxs, h, hm => by
    simp only [varInExpr] at h
    simp only [noConstMul] at hm
    exact coefList_stable v c idxs h hm

/-- List part of `coefExpr_stable`. -/
theorem coefList_stable (v : ℕ) (c : ℤ) :
    ∀ es : PExprList, varInList v es = false → noConstMulList es = true →
      coefList v ⟨true, true, false, c⟩ es = ⟨true, true, false, c⟩
  | .nil, _, _ => rfl
  | .cons e es, h, hm => by
    simp only [varInList, Bool.or_eq_false_iff] at h
    simp only [noConstMulList, Bool.and_eq_true] at hm
    rw [coefList, coefExpr_stable v c e h.1 hm.1, coefList_stable v c es h.2 hm.2]
end

/-- C5 counterexample input: `5*V + 2*z` — an affine form `c*V + k` whose `k`
contains a constant multiplication. -/
def c5badExpr : PExpr :=
  .binop .addk (.binop .mulk (.intImm 5) (.evar 0)) (.binop .mulk (.intImm 2) (.evar 1))

/-- C5, counterexample: on `5*V + 2*z` (with `k = 2*z` not containing `V`)
`ExtractCoefficient` returns `2`, not the claimed coefficient `5`: the Mul
rule fires again on the constant multiplication inside `k` and overwrites the
recorded stride. -/
theorem extractCoefficient_affine_counterexample :
    varInExpr 0 (.binop .mulk (.intImm 2) (.evar 1)) = false ∧
      extractCoefficient c5badExpr 0 = 2 ∧ (2 : ℤ) ≠ 5 := by
  refine ⟨by decide, by decide, by decide⟩

/-- C5 (amended): the extractor returns 1 when the variable was seen and
neither rule fired, the recorded stride otherwise, and 0 when the variable
never occurs; for the affine form `c*V + k` with `V` not in `k` it returns
exactly `c` provided additionally no multiplication inside `k` has a
constant-integer operand (otherwise that multiplication overwrites the
stride, as the counterexample shows). -/
theorem extractCoefficient_spec (v : ℕ) (e : PExpr) :
    (varInExpr v e = false → extractCoefficient e v = 0) ∧
    ((extractCoefficientSt e v).sawVar = true ∧ (extractCoefficientSt e v).sawMul = false ∧
        (extractCoefficientSt e v).sawAdd = false →
      extractCoefficient e v = 1) ∧
    (¬ ((extractCoefficientSt e v).sawVar = true ∧ (extractCoefficientSt e v).sawMul = false ∧
          (extractCoefficientSt e v).sawAdd = false) →
      extractCoefficient e v = (extractCoefficientSt e v).stride) ∧
    (∀ (c : ℤ) (k : PExpr), varInExpr v k = false → noConstMul k = true →
      extractCoefficient (.binop .addk (.binop .mulk (.intImm c) (.evar v)) k) v = c) := by
  refine ⟨?_, ?_, ?_, ?_⟩
  · intro h
    unfold extractCoefficient extractCoefficientSt
    rw [coefExpr_no_var v coefInit rfl e h]
    rfl
  · intro h
    unfold extractCoefficient
    simp [h.1, h.2.1, h.2.2]
  · intro h
    unfold extractCoefficient
    rcases hv : (extractCoefficientSt e v).sawVar with _ | _ <;>
      rcases hm : (extractCoefficientSt e v).sawMul with _ | _ <;>
        rcases ha : (extractCoefficientSt e v).sawAdd with _ | _ <;> simp_all
  · intro c k hk hm
    have hstep : extractCoefficientSt (.binop .addk (.binop .mulk (.intImm c) (.evar v)) k) v =
        ⟨true, true, false, c⟩ := by
      unfold extractCoefficientSt
      show coefExpr v coefInit (.binop .addk (.binop .mulk (.intImm c) (.evar v)) k) =
        ⟨true, true, false, c⟩
      rw [coefExpr]
      have h1 : coefExpr v coefInit (.binop .mulk (.intImm c) (.evar v)) =
          ⟨true, true, false, c⟩ := by
        rw [coefExpr]
        simp [coefExpr, coefInit, constOf]
      rw [h1, coefExpr_stable v c k hk hm]
      simp
    unfold extractCoefficient
    rw [hstep]
    simp

/-- C5 witness: the amended theorem applied at concrete inputs — `V` absent
from the constant `1` gives coefficient `0`, and `5*V + 3` gives exactly `5`. -/
theorem extractCoefficient_spec_witness :
    extractCoefficient (.intImm 1) 0 = 0 ∧
      extractCoefficient (.binop .addk (.binop .mulk (.intImm 5) (.evar 0)) (.intImm 3)) 0 = 5 :=
  ⟨(extractCoefficient_spec 0 (.intImm 1)).1 (by decide),
    (extractCoefficient_spec 0 (.intImm 1)).2.2.2 5 (.intImm 3) (by decide) (by decide)⟩

/-! ## Loops and ComputeStride -/

/-- The `ForType` annotation of a loop node (DeviceAPI/thread binding aside). -/
inductive ForKind where
  | serial | parallel | vectorized | unrolled
deriving DecidableEq, Repr

/-- One `ForNode` of the loop stack: loop variable, `min` and `extent`
expressions and the loop kind. -/
structure FNode where
  var : ℕ
  minE : PExpr
  extentE : PExpr
  kind : ForKind

/-- `GetLoopExtent`: the constant value of an extent expression, `1` when the
extent is not a constant integer. -/
def getLoopExtent (e : PExpr) : ℤ :=
  match e with
  | .intImm v => v
  | _ => 1

/-- The initial `min_stride` of `ComputeStride`
(`std::numeric_limits<int64_t>::max()`). -/
def int64Max : ℤ := 2 ^ 63 - 1

/-- Inner dimension scan of `ComputeStride` for one index tuple: dimensions
are walked from the last one backwards (the list is the reversed
`(index, shape)` pairing), accumulating `shape_stride`; at the first dimension
whose expression mentions the variable the candidate `|coefficient| *
shape_stride` is produced. -/
def strideScanDims (v : ℕ) : List (PExpr × ℤ) → ℤ → Option ℤ
  | [], _ => none
  | (e, s) :: rest, shapeStride =>
    if (extractCoefficientSt e v).sawVar then some (|extractCoefficient e v| * shapeStride)
    else strideScanDims v rest (shapeStride * s)

/-- `ComputeStride`: minimum candidate over all index tuples, `0` when the
variable occurs in no tuple. -/
def computeStride (indices : List (List PExpr)) (shape : List ℤ) (v : ℕ) : ℤ :=
  let found := indices.filterMap (fun tup => strideScanDims v ((tup.zip shape).reverse) 1)
  if found.isEmpty then 0 else found.foldl min int64Max

/-- Extent of `for_loop_stack.back()` (the innermost loop); `1` for an empty
stack, where the caller never reads it. -/
def extBackOf (stack : List FNode) : ℤ :=
  match stack.getLast? with
  | some f => getLoopExtent f.extentE
  | none => 1

/-- The stride search of the store visitor (feature.cc lines 836-845) over the
reversed loop stack (innermost first): at each zero-stride level the code
multiplies `reduce_ratio` by the extent of `for_loop_stack.back()` — always
the innermost loop — and moves outward; at the first nonzero stride it stops.
Returns `(stride, reduce_ratio)`. -/
def strideScanLoops (indices : List (List PExpr)) (shape : List ℤ) (extBack : ℤ) :
    List FNode → ℤ → ℤ × ℤ
  | [], rr => (0, rr)
  | f :: rest, rr =>
    let s := computeStride indices shape f.var
    if s ≠ 0 then (s, rr) else strideScanLoops indices shape extBack rest (rr * extBack)

/-- The `lines` feature of one buffer access in a store with a non-empty loop
stack (feature.cc lines 847-849). -/
def storeLines (indices : List (List PExpr)) (shape : List ℤ) (stack : List FNode)
    (outerProd eleBytes clsz : ℚ) : ℚ :=
  let p := strideScanLoops indices shape (extBackOf stack) stack.reverse 1
  max (outerProd / (p.2 : ℚ) * min 1 ((p.1 : ℚ) * eleBytes / clsz)) 1

/-- Number of zero-stride loops skipped by the stride search, counted from the
innermost loop (the argument is the reversed stack). -/
def skippedCountRev (indices : List (List PExpr)) (shape : List ℤ) : List FNode → ℕ
  | [] => 0
  | f :: rest =>
    if computeStride indices shape f.var ≠ 0 then 0
    else skippedCountRev indices shape rest + 1

/-- Modelled from the spec's words, for comparison: `reduce_ratio` as the
product of the extents of exactly the skipped zero-stride loops. -/
def specSkippedProd (indices : List (List PExpr)) (shape : List ℤ) (stack : List FNode) : ℤ :=
  ((stack.reverse.take (skippedCountRev indices shape stack.reverse)).map
    (fun f => getLoopExtent f.extentE)).prod

/-- The `reduce_ratio` accumulator multiplies the innermost extent once per
skipped level. -/
theorem strideScanLoops_rr (indices : List (List PExpr)) (shape : List ℤ) (extBack : ℤ) :
    ∀ (l : List FNode) (rr : ℤ),
      (strideScanLoops indices shape extBack l rr).2 =
        rr * extBack ^ skippedCountRev indices shape l
  | [], rr => by simp [strideScanLoops, skippedCountRev]
  | f :: rest, rr => by
    rw [strideScanLoops, skippedCountRev]
    by_cases hs : computeStride indices shape f.var ≠ 0
    · simp [hs]
    · simp only [hs, if_false, if_neg hs]
      rw [strideScanLoops_rr indices shape extBack rest (rr * extBack)]
      ring

/-- C2 counterexample stack: loops `a, b, c` (outermost to innermost) with
extents `100, 3, 2`; the single access index mentions only `a`. -/
def c2stack : List FNode :=
  [⟨0, .intImm 0, .intImm 100, .serial⟩, ⟨1, .intImm 0, .intImm 3, .serial⟩,
    ⟨2, .intImm 0, .intImm 2, .serial⟩]

/-- C2, counterexample: with loops of extents `100, 3, 2` (innermost extent 2)
and an access indexed only by the outermost variable, the two innermost loops
are skipped, but the code computes `reduce_ratio = 2·2 = 4` (the innermost
extent twice) instead of the claimed product of the skipped extents `3·2 = 6`;
with `outer_loop_prod = 600`, 4-byte elements and 64-byte lines the emitted
`lines` is `75/8`, while the claimed formula gives `25/4`. -/
theorem storeLines_counterexample :
    strideScanLoops [[.evar 0]] [100] (extBackOf c2stack) c2stack.reverse 1 = (1, 4) ∧
      specSkippedProd [[.evar 0]] [100] c2stack = 6 ∧
      storeLines [[.evar 0]] [100] c2stack 600 4 64 = 75 / 8 ∧
      max ((600 : ℚ) / 6 * min 1 (1 * 4 / 64)) 1 = 25 / 4 ∧
      (75 / 8 : ℚ) ≠ 25 / 4 := by
  have hpair : strideScanLoops [[.evar 0]] [100] (extBackOf c2stack) c2stack.reverse 1 = (1, 4) :=
    by decide
  refine ⟨hpair, by decide, ?_, ?_, by norm_num⟩
  · simp only [storeLines, hpair]
    norm_num [min_def, max_def]
  · norm_num [min_def, max_def]

/-- C2 (amended): in the per-buffer access features with a non-empty loop
stack, walking inner to outer until a nonzero stride, `reduce_ratio` equals
the innermost loop's extent raised to the number of skipped zero-stride loops
(not the product of the skipped loops' own extents), and
`lines = max(1, outer_loop_prod / reduce_ratio · min(1, stride · element_bytes
/ cache_line_size))` with that `reduce_ratio`. -/
theorem storeLines_spec (indices : List (List PExpr)) (shape : List ℤ) (stack : List FNode)
    (outerProd eleBytes clsz : ℚ) :
    (strideScanLoops indices shape (extBackOf stack) stack.reverse 1).2 =
      extBackOf stack ^ skippedCountRev indices shape stack.reverse ∧
    storeLines indices shape stack outerProd eleBytes clsz =
      max (outerProd / ((extBackOf stack : ℚ) ^ skippedCountRev indices shape stack.reverse) *
        min 1 (((strideScanLoops indices shape (extBackOf stack) stack.reverse 1).1 : ℚ) *
          eleBytes / clsz)) 1 := by
  have hrr := strideScanLoops_rr indices shape (extBackOf stack) stack.reverse 1
  rw [one_mul] at hrr
  constructor
  · exact hrr
  · simp only [storeLines, hrr]
    push_cast
    rfl

/-! ## BufferAccessExtractor -/

/-- `BufferAccessType` of feature.cc. -/
inductive AccType where
  | read | write | readWrite | unknownRW
deriving DecidableEq, Repr

/-- A `BufferAccess` record: current access kind and collected index tuples. -/
structure BufAcc where
  accType : AccType
  indices : List (List PExpr)

/-- Default-constructed `BufferAccess` (`kUnknownRW`, no tuples), produced by
`operator[]` on a missing key. -/
def defaultBufAcc : BufAcc := ⟨.unknownRW, []⟩

/-- `buf_accesses[b]`-style update of the access map: modify the entry for `b`
in place, or append a modified default entry when absent. -/
def mapUpd (b : ℕ) (g : BufAcc → BufAcc) : List (ℕ × BufAcc) → List (ℕ × BufAcc)
  | [] => [(b, g defaultBufAcc)]
  | (k, v) :: rest => if k = b then (k, g v) :: rest else (k, v) :: mapUpd b g rest

/-- Lookup in the access map. -/
def lookupB : List (ℕ × BufAcc) → ℕ → Option BufAcc
  | [], _ => none
  | (k, v) :: rest, b => if k = b then some v else lookupB rest b

/-- `BufferAccessExtractor::InsertAccess`: sets the access kind absolutely and
appends the index tuple. -/
def insertAccessSt (st : List (ℕ × BufAcc)) (b : ℕ) (t : AccType) (idxs : List PExpr) :
    List (ℕ × BufAcc) :=
  mapUpd b (fun a => ⟨t, a.indices ++ [idxs]⟩) st

/-- The kind transition performed by the `BufferLoadNode` handler's switch. -/
def loadTrans : AccType → AccType
  | .read => .read
  | .write => .readWrite
  | .readWrite => .readWrite
  | .unknownRW => .read

/-- The `BufferLoadNode` handler of `BufferAccessExtractor`: transition the
kind, then append the tuple unless the (new) kind is `kReadWrite`. -/
def visitLoadStep (st : List (ℕ × BufAcc)) (b : ℕ) (idxs : List PExpr) :
    List (ℕ × BufAcc) :=
  mapUpd b (fun a =>
    let t := loadTrans a.accType
    ⟨t, if t = .readWrite then a.indices else a.indices ++ [idxs]⟩) st

mutual
/-- `BufferAccessExtractor::ExtractReads` walk over an expression: the load
handler fires at each `BufferLoadNode` (then its index children are visited). -/
def extractReadsE (st : List (ℕ × BufAcc)) : PExpr → List (ℕ × BufAcc)
  | .intImm _ => st
  | .floatImm => st
  | .evar _ => st
  | .binop _ a b => extractReadsE (extractReadsE st a) b
  | .lnot a => extractReadsE st a
  | .select c t f => extractReadsE (extractReadsE (extractReadsE st c) t) f
  | .call _ _ args => extractReadsL st args
  | .load _ b idxs => extractReadsL (visitLoadStep st b idxs.toList) idxs

/-- List part of the `ExtractReads` walk. -/
def extractReadsL (st : List (ℕ × BufAcc)) : PExprList → List (ℕ × BufAcc)
  | .nil => st
  | .cons e es => extractReadsL (extractReadsE st e) es
end

/-- Kind of buffer `b` in the access map (`kUnknownRW` when absent). -/
def accOf (st : List (ℕ × BufAcc)) (b : ℕ) : AccType :=
  ((lookupB st b).getD defaultBufAcc).accType

/-- Index tuples of buffer `b` in the access map. -/
def idxsOf (st : List (ℕ × BufAcc)) (b : ℕ) : List (List PExpr) :=
  ((lookupB st b).getD defaultBufAcc).indices

/-- Lookup after an in-place map update. -/
theorem lookupB_mapUpd (b : ℕ) (g : BufAcc → BufAcc) :
    ∀ st : List (ℕ × BufAcc),
      lookupB (mapUpd b g st) b = some (g ((lookupB st b).getD defaultBufAcc))
  | [] => by simp [mapUpd, lookupB]
  | (k, v) :: rest => by
    by_cases hk : k = b
    · simp [mapUpd, lookupB, hk]
    · simp only [mapUpd, lookupB, if_neg hk]
      exact lookupB_mapUpd b g rest

/-- C6, counterexample: starting from an empty map, a load makes buffer 3's
kind `Read`; a subsequent store (`InsertAccess` with `kWrite`) sets the kind
to `Write`, not to the `ReadWrite` the claimed transition table requires. -/
theorem accessKind_counterexample :
    accOf (visitLoadStep [] 3 [.intImm 0]) 3 = .read ∧
      accOf (insertAccessSt (visitLoadStep [] 3 [.intImm 0]) 3 .write [.intImm 0]) 3 = .write ∧
      AccType.write ≠ AccType.readWrite := by
  refine ⟨by decide, by decide, by decide⟩

/-- C6 (amended): a store (`InsertAccess`) sets the buffer's kind to the
stored kind unconditionally and always appends its index tuple, while loads
follow the table `Unknown → Read`, `Write → ReadWrite`, with `Read` and
`ReadWrite` absorbing; and once the (post-transition) kind is `ReadWrite`,
index tuples of loads are not appended. -/
theorem accessKind_spec (st : List (ℕ × BufAcc)) (b : ℕ) (t : AccType) (idxs : List PExpr) :
    accOf (insertAccessSt st b t idxs) b = t ∧
    idxsOf (insertAccessSt st b t idxs) b = idxsOf st b ++ [idxs] ∧
    accOf (visitLoadStep st b idxs) b = loadTrans (accOf st b) ∧
    idxsOf (visitLoadStep st b idxs) b =
      (if loadTrans (accOf st b) = .readWrite then idxsOf st b else idxsOf st b ++ [idxs]) := by
  refine ⟨?_, ?_, ?_, ?_⟩
  · simp [accOf, insertAccessSt, lookupB_mapUpd]
  · simp [idxsOf, insertAccessSt, lookupB_mapUpd]
  · simp [accOf, visitLoadStep, lookupB_mapUpd]
  · simp only [idxsOf, accOf, visitLoadStep, lookupB_mapUpd, Option.getD_some]

/-! ## ComputeReuse -/

/-- `ReuseType` of feature.cc. -/
inductive ReuType where
  | loopMultipleRead | serialMultipleReadWrite | noReuse
deriving DecidableEq, Repr

/-- One entry of a per-loop touch-region table: access type, number of touched
elements, bytes of a single element. -/
def AccEntry : Type := AccType × ℤ × ℤ

/-- `for_touch_regions` as consumed by `ComputeReuse`: for a loop frame, the
per-buffer lists of touch entries (`none` models the `std::out_of_range` of a
missing `.at` key). -/
def RegionTable : Type := FNode → Option (List (ℕ × List AccEntry))

/-- Per-buffer lookup inside one loop's table (`buffer_map.at(buf)`). -/
def lookupE : List (ℕ × List AccEntry) → ℕ → Option (List AccEntry)
  | [], _ => none
  | (k, v) :: rest, b => if k = b then some v else lookupE rest b

/-- Sum of `element-count × element-bytes` over all buffers of one loop's
table. -/
def sumBytesFull (es : List (ℕ × List AccEntry)) : ℚ :=
  es.foldl (fun acc p => p.2.foldl (fun a en => a + (en.2.1 : ℚ) * (en.2.2 : ℚ)) acc) 0

/-- Sum of `1 × element-bytes` over all buffers of one loop's table (the
innermost-axis recomputation). -/
def sumBytesOne (es : List (ℕ × List AccEntry)) : ℚ :=
  es.foldl (fun acc p => p.2.foldl (fun a en => a + 1 * (en.2.2 : ℚ)) acc) 0

/-- `std::numeric_limits<float>::max()`, exactly. -/
def fltMax : ℚ := 2 ^ 128 - 2 ^ 104

/-- The loop of `ComputeReuse`, walking the reversed loop stack (innermost
first) and threading `reuse_dis_iter` / `reuse_dis_bytes` (the latter starts
at the `-1` sentinel). -/
def computeReuseGo (buf : ℕ) (indices : List (List PExpr)) (table : RegionTable) :
    List FNode → ℚ → ℚ → Option (ReuType × ℚ × ℚ × ℚ)
  | [], _, _ => some (.noReuse, 0, 0, 0)
  | curFor :: rest, rdIter, rdBytes =>
    let fnd := indices.any (fun tup => tup.any (fun e => varInExpr curFor.var e))
    let extent := getLoopExtent curFor.extentE
    if fnd then
      match table curFor with
      | none => none
      | some es =>
        match lookupE es buf with
        | none => none
        | some lst =>
          if 0 < (lst.length : ℤ) - 1 then
            some (.serialMultipleReadWrite,
              lst.foldl (fun m en => min m ((en.2.1 : ℚ))) fltMax / (extent : ℚ),
              sumBytesFull es / (extent : ℚ), (((lst.length : ℤ) - 1 : ℤ) : ℚ))
          else computeReuseGo buf indices table rest (rdIter * (extent : ℚ)) (sumBytesFull es)
    else
      if rdBytes < 0 then
        match table curFor with
        | none => none
        | some es => some (.loopMultipleRead, rdIter, sumBytesOne es, (extent : ℚ))
      else some (.loopMultipleRead, rdIter, rdBytes, (extent : ℚ))

/-- `ComputeReuse` on a loop stack given outermost-first. -/
def computeReuse (buf : ℕ) (indices : List (List PExpr)) (table : RegionTable)
    (stack : List FNode) : Option (ReuType × ℚ × ℚ × ℚ) :=
  computeReuseGo buf indices table stack.reverse 1 (-1)

/-- Folding an accumulator-increasing function never decreases the start. -/
theorem foldl_ge_start (F : ℚ → AccEntry → ℚ) (l : List AccEntry)
    (hF : ∀ a en, en ∈ l → a ≤ F a en) : ∀ a : ℚ, a ≤ l.foldl F a := by
  induction l with
  | nil => intro a; simp
  | cons x xs ih =>
    intro a
    have h1 : a ≤ F a x := hF a x (by simp)
    have h2 : F a x ≤ xs.foldl F (F a x) :=
      ih (fun a en hen => hF a en (by simp [hen])) (F a x)
    simpa [List.foldl_cons] using le_trans h1 h2

/-- Outer-level version of `foldl_ge_start` for per-buffer lists. -/
theorem foldl_ge_start_pairs (F : ℚ → (ℕ × List AccEntry) → ℚ)
    (l : List (ℕ × List AccEntry)) (hF : ∀ a p, p ∈ l → a ≤ F a p) :
    ∀ a : ℚ, a ≤ l.foldl F a := by
  induction l with
  | nil => intro a; simp
  | cons x xs ih =>
    intro a
    have h1 : a ≤ F a x := hF a x (by simp)
    have h2 : F a x ≤ xs.foldl F (F a x) :=
      ih (fun a p hp => hF a p (by simp [hp])) (F a x)
    simpa [List.foldl_cons] using le_trans h1 h2

/-- With non-negative table entries, the full byte sum is non-negative. -/
theorem sumBytesFull_nonneg (es : List (ℕ × List AccEntry))
    (h : ∀ p ∈ es, ∀ en ∈ p.2, 0 ≤ en.2.1 ∧ 0 ≤ en.2.2) : 0 ≤ sumBytesFull es := by
  unfold sumBytesFull
  refine foldl_ge_start_pairs _ es ?_ 0
  intro a p hp
  refine foldl_ge_start _ p.2 ?_ a
  intro a2 en hen
  have hh := h p hp en hen
  have : (0 : ℚ) ≤ (en.2.1 : ℚ) * (en.2.2 : ℚ) := by
    have h1 : (0 : ℚ) ≤ (en.2.1 : ℚ) := by exact_mod_cast hh.1
    have h2 : (0 : ℚ) ≤ (en.2.2 : ℚ) := by exact_mod_cast hh.2
    exact mul_nonneg h1 h2
  linarith

/-- With non-negative table entries, the one-element byte sum is
non-negative. -/
theorem sumBytesOne_nonneg (es : List (ℕ × List AccEntry))
    (h : ∀ p ∈ es, ∀ en ∈ p.2, 0 ≤ en.2.1 ∧ 0 ≤ en.2.2) : 0 ≤ sumBytesOne es := by
  unfold sumBytesOne
  refine foldl_ge_start_pairs _ es ?_ 0
  intro a p hp
  refine foldl_ge_start _ p.2 ?_ a
  intro a2 en hen
  have hh := h p hp en hen
  have h2 : (0 : ℚ) ≤ (en.2.2 : ℚ) := by exact_mod_cast hh.2
  linarith

/-- A successful per-buffer lookup exhibits a member of the table. -/
theorem lookupE_mem : ∀ (es : List (ℕ × List AccEntry)) (b : ℕ) (lst : List AccEntry),
    lookupE es b = some lst → (b, lst) ∈ es
  | [], _, _, h => by simp [lookupE] at h
  | (k, v) :: rest, b, lst, h => by
    rw [lookupE] at h
    by_cases hk : k = b
    · rw [if_pos hk] at h
      obtain rfl : v = lst := Option.some.inj h
      subst hk
      simp
    · rw [if_neg hk] at h
      exact List.mem_cons_of_mem _ (lookupE_mem rest b lst h)

/-- A `min`-fold over non-negative values from a non-negative start stays
non-negative. -/
theorem foldl_min_nonneg (l : List AccEntry) (h : ∀ en ∈ l, 0 ≤ en.2.1) :
    ∀ a : ℚ, 0 ≤ a → 0 ≤ l.foldl (fun m en => min m ((en.2.1 : ℚ))) a := by
  induction l with
  | nil => intro a ha; simpa
  | cons x xs ih =>
    intro a ha
    have hx : (0 : ℚ) ≤ (x.2.1 : ℚ) := by exact_mod_cast h x (by simp)
    refine ih (fun en hen => h en (by simp [hen])) _ ?_
    exact le_min ha hx

/-- Invariant run of the `ComputeReuse` loop: with extents at least 1 and
non-negative table entries, any produced result has non-negative scalar
components, and a `NoReuse` result has all three scalars zero. -/
theorem computeReuseGo_spec (buf : ℕ) (indices : List (List PExpr)) (table : RegionTable)
    (htab : ∀ fr es, table fr = some es → ∀ p ∈ es, ∀ en ∈ p.2, 0 ≤ en.2.1 ∧ 0 ≤ en.2.2) :
    ∀ (l : List FNode), (∀ fr ∈ l, 1 ≤ getLoopExtent fr.extentE) →
      ∀ (rdIter rdBytes : ℚ), 0 ≤ rdIter →
        ∀ r, computeReuseGo buf indices table l rdIter rdBytes = some r →
          (0 ≤ r.2.1 ∧ 0 ≤ r.2.2.1 ∧ 0 ≤ r.2.2.2) ∧
            (r.1 = .noReuse → r.2.1 = 0 ∧ r.2.2.1 = 0 ∧ r.2.2.2 = 0) := by
  intro l
  induction l with
  | nil =>
    intro _ rdIter rdBytes _ r hr
    simp only [computeReuseGo, Option.some_inj] at hr
    subst hr
    exact ⟨⟨le_refl 0, le_refl 0, le_refl 0⟩, fun _ => ⟨rfl, rfl, rfl⟩⟩
  | cons curFor rest ih =>
    intro hext rdIter rdBytes hIter r hr
    have hcur : (1 : ℤ) ≤ getLoopExtent curFor.extentE := hext curFor (by simp)
    have hcurQ : (0 : ℚ) ≤ ((getLoopExtent curFor.extentE : ℤ) : ℚ) := by
      have : (0 : ℤ) ≤ getLoopExtent curFor.extentE := le_trans (by norm_num) hcur
      exact_mod_cast this
    have hrest : ∀ fr ∈ rest, 1 ≤ getLoopExtent fr.extentE :=
      fun fr hfr => hext fr (by simp [hfr])
    by_cases hfnd : (indices.any (fun tup => tup.any (fun e => varInExpr curFor.var e))) = true
    · cases htf : table curFor with
      | none =>
        simp only [computeReuseGo, hfnd, if_true, htf] at hr
        exact Option.noConfusion hr
      | some es =>
        have hes := htab curFor es htf
        cases hle : lookupE es buf with
        | none =>
          simp only [computeReuseGo, hfnd, if_true, htf, hle] at hr
          exact Option.noConfusion hr
        | some lst =>
          simp only [computeReuseGo, hfnd, if_true, htf, hle] at hr
          by_cases hser : (0 : ℤ) < (lst.length : ℤ) - 1
          · rw [if_pos hser] at hr
            simp only [Option.some_inj] at hr
            subst hr
            have hmem : (buf, lst) ∈ es := lookupE_mem es buf lst hle
            have hlst : ∀ en ∈ lst, 0 ≤ en.2.1 := fun en hen => (hes (buf, lst) hmem en hen).1
            refine ⟨⟨?_, ?_, ?_⟩, by simp⟩
            · refine div_nonneg ?_ hcurQ
              exact foldl_min_nonneg lst hlst fltMax (by norm_num [fltMax])
            · exact div_nonneg (sumBytesFull_nonneg es hes) hcurQ
            · show (0 : ℚ) ≤ (((lst.length : ℤ) - 1 : ℤ) : ℚ)
              exact_mod_cast le_of_lt hser
          · rw [if_neg hser] at hr
            exact ih hrest (rdIter * ((getLoopExtent curFor.extentE : ℤ) : ℚ)) (sumBytesFull es)
              (mul_nonneg hIter hcurQ) r hr
    · simp only [Bool.not_eq_true] at hfnd
      by_cases hb : rdBytes < 0
      · cases htf : table curFor with
        | none =>
          simp only [computeReuseGo, hfnd, Bool.false_eq_true, if_false, if_pos hb, htf] at hr
          exact Option.noConfusion hr
        | some es =>
          simp only [computeReuseGo, hfnd, Bool.false_eq_true, if_false, if_pos hb, htf,
            Option.some_inj] at hr
          subst hr
          exact ⟨⟨hIter, sumBytesOne_nonneg es (htab curFor es htf), hcurQ⟩, by simp⟩
      · simp only [computeReuseGo, hfnd, Bool.false_eq_true, if_false, if_neg hb,
          Option.some_inj] at hr
        subst hr
        exact ⟨⟨hIter, le_of_not_lt hb, hcurQ⟩, by simp⟩

/-- C9 (amended): provided every loop extent on the stack is at least 1 and
every region-table entry has non-negative element-count and element-bytes,
`ComputeReuse` returns non-negative `reuse_dis_iter`, `reuse_dis_bytes` and
`reuse_ct` (in the exact rational model; float finiteness is subsumed); and
whenever it returns `NoReuse`, all three are 0. -/
theorem computeReuse_spec (buf : ℕ) (indices : List (List PExpr)) (table : RegionTable)
    (stack : List FNode)
    (hext : ∀ fr ∈ stack, 1 ≤ getLoopExtent fr.extentE)
    (htab : ∀ fr es, table fr = some es → ∀ p ∈ es, ∀ en ∈ p.2, 0 ≤ en.2.1 ∧ 0 ≤ en.2.2) :
    ∀ r, computeReuse buf indices table stack = some r →
      (0 ≤ r.2.1 ∧ 0 ≤ r.2.2.1 ∧ 0 ≤ r.2.2.2) ∧
        (r.1 = .noReuse → r.2.1 = 0 ∧ r.2.2.1 = 0 ∧ r.2.2.2 = 0) := by
  intro r hr
  exact computeReuseGo_spec buf indices table htab stack.reverse
    (fun fr hfr => hext fr (List.mem_reverse.mp hfr)) 1 (-1) (by norm_num) r hr

/-- C9 witness: on the empty stack the classifier returns
`(NoReuse, 0, 0, 0)`, and the spec yields non-negativity and the zero
property there. -/
theorem computeReuse_spec_witness :
    ((0 : ℚ) ≤ 0 ∧ (0 : ℚ) ≤ 0 ∧ (0 : ℚ) ≤ 0) ∧
      (ReuType.noReuse = ReuType.noReuse → (0 : ℚ) = 0 ∧ (0 : ℚ) = 0 ∧ (0 : ℚ) = 0) :=
  computeReuse_spec 0 [] (fun _ => none) [] (by simp) (by simp) (.noReuse, 0, 0, 0) rfl

/-- C9 counterexample loop frames: inner loop of constant extent `-2`
(variable 0), outer loop of extent 5 (variable 1). -/
def c9frInner : FNode := ⟨0, .intImm 0, .intImm (-2), .serial⟩

/-- Outer frame of the C9 counterexample. -/
def c9frOuter : FNode := ⟨1, .intImm 0, .intImm 5, .serial⟩

/-- Region table of the C9 counterexample: buffer 7 touched once under each
frame, 1 element of 4 bytes. -/
def c9table : RegionTable := fun fr =>
  if fr.var ≤ 1 then some [(7, [(.write, 1, 4)])] else none

/-- C9, counterexample: with an inner loop of constant extent `-2` whose
variable appears in the index, `reuse_dis_iter` accumulates `1 · (-2) = -2`
and the outer loop (variable absent) returns `LoopMultipleRead` with that
negative reuse distance — refuting unconditional non-negativity. -/
theorem computeReuse_counterexample :
    computeReuse 7 [[.evar 0]] c9table [c9frOuter, c9frInner] =
      some (.loopMultipleRead, -2, 4, 5) ∧ ¬ ((0 : ℚ) ≤ -2) := by
  constructor
  · show computeReuseGo 7 [[.evar 0]] c9table [c9frOuter, c9frInner].reverse 1 (-1) =
      some (.loopMultipleRead, -2, 4, 5)
    norm_num [computeReuseGo, c9table, c9frInner, c9frOuter, getLoopExtent, sumBytesFull,
      sumBytesOne, lookupE, varInExpr, fltMax]
  · norm_num

/-! ## Touched regions and the arithmetic-intensity curve -/

/-- `ElementProduct` (utils.h): product of the entries of a region vector. -/
def elementProduct (l : List ℤ) : ℤ := l.foldl (fun a x => a * x) 1

/-- `ConstIntBound::kPosInf` sentinel. -/
def cibPosInf : ℤ := 2 ^ 63 - 1

/-- `ConstIntBound::kNegInf` sentinel. -/
def cibNegInf : ℤ := -(2 ^ 63 - 1)

/-- `ComputeRegion`: per-dimension extents of the box touched by the index
tuples, as reported by the bound analyzer `ana` (an external collaborator,
passed as the function `const_int_bound` already specialized to the current
binding environment). -/
def computeRegion (ana : PExpr → ℤ × ℤ) (indices : List (List PExpr)) : List ℤ :=
  match indices with
  | [] => []
  | first :: restIdx =>
    if restIdx.isEmpty then
      first.map (fun e => (ana e).2 - (ana e).1 + 1)
    else
      (List.range first.length).map (fun i =>
        let mn := indices.foldl (fun m tup => min m (ana (tup.getD i (.intImm 0))).1) cibPosInf
        let mx := indices.foldl (fun m tup => max m (ana (tup.getD i (.intImm 0))).2) cibNegInf
        mx - mn + 1)

/-- Binding environment of the analyzer: innermost-first list of
`(loop var, min, extent)` bindings (a later `Bind` with `override` prepends). -/
def AnaEnv : Type := List (ℕ × PExpr × PExpr)

/-- The region/ops loop of the store visitor (feature.cc lines 747-775) over
the reversed loop stack (innermost first): re-binds each loop variable from
the degenerate `[min, 1)` range to the full `[min, extent)` range, sums the
touched bytes of all accesses at that level, and accumulates
`cur_compute_ops`.  Returns the final `cur_compute_ops` and the
innermost-first `mem_bytes` and `compute_ops` lists (in linear space; the
`log2` application of the source is composed on top).  The insertion into
`for_touch_regions` is not re-modelled here: `ComputeReuse` above receives
that table as an explicit argument. -/
def regionLoop (ana : AnaEnv → PExpr → ℤ × ℤ) (eleBytes : ℕ → ℤ)
    (accs : List (ℕ × BufAcc)) :
    List FNode → AnaEnv → ℤ → ℤ × List ℤ × List ℤ
  | [], _, cur => (cur, [], [])
  | f :: rest, env, cur =>
    let env1 := (f.var, f.minE, f.extentE) :: env
    let mb := accs.foldl
      (fun acc x => acc + elementProduct (computeRegion (ana env1) x.2.indices) * eleBytes x.1) 0
    let cur1 := cur * getLoopExtent f.extentE
    let r := regionLoop ana eleBytes accs rest env1 cur1
    (r.1, mb :: r.2.1, cur1 :: r.2.2)

/-- `ARITH_INTENSITY_CURVE_SAMPLE_N`. -/
def arithSampleN : ℕ := 10

/-- The float literal `1e-4` of the pointer-advance comparison. -/
def tolQ : ℚ := 1 / 10000

/-- The pointer advance `while (compute_ops_list[pt] < x - 1e-4) pt++;` of
the curve sampling.  The C++ loop indexes without a bounds check (the
`CHECK_LT` follows it); the model stops at `l.length`, so the safety claim is
that the result stays strictly below `l.length`. -/
def advancePt (l : List ℚ) (x : ℚ) (pt : ℕ) : ℕ :=
  if h : pt < l.length then
    if l.get ⟨pt, h⟩ < x - tolQ then advancePt l x (pt + 1) else pt
  else pt
termination_by l.length - pt

/-- One pass of the curve-sampling loop over the sample indices, threading the
pointer `pt`; returns for each sample the advanced pointer and the
interpolated value. -/
def sampleSteps (cList mList : List ℚ) : List ℕ → ℕ → List (ℕ × ℚ)
  | [], _ => []
  | i :: restI, pt =>
    let x := cList.getLast?.getD 0 * ((i : ℚ) + 1) / (arithSampleN : ℚ)
    let pt1 := advancePt cList x pt
    let value :=
      if pt1 = 0 then cList.getD 0 0 / mList.getD 0 0
      else
        let base := cList.getD (pt1 - 1) 0 / mList.getD (pt1 - 1) 0
        let slope := (cList.getD pt1 0 / mList.getD pt1 0 - base) /
          (cList.getD pt1 0 - cList.getD (pt1 - 1) 0)
        base + slope * (x - cList.getD (pt1 - 1) 0)
    (pt1, value) :: sampleSteps cList mList restI pt1

/-- The arithmetic-intensity curve of one store (feature.cc lines 779-803):
ten zeros when `cur_compute_ops ≤ 0` or the ops list is empty, else ten
interpolated samples. -/
def arithCurve (cList mList : List ℚ) (curOps : ℤ) : List ℚ :=
  if curOps ≤ 0 ∨ cList.isEmpty then List.replicate arithSampleN (0 : ℚ)
  else (sampleSteps cList mList (List.range arithSampleN) 0).map (fun p => p.2)

/-- The pointer values checked by `CHECK_LT(pt, compute_ops_list.size())`
during curve sampling. -/
def samplePtsOf (cList mList : List ℚ) : List ℕ :=
  (sampleSteps cList mList (List.range arithSampleN) 0).map (fun p => p.1)

/-- The buffer accesses of one store: the store's own write inserted first,
then the loads of the value expression. -/
def storeAccesses (buf : ℕ) (sIdx : List PExpr) (value : PExpr) : List (ℕ × BufAcc) :=
  extractReadsE (insertAccessSt [] buf .write sIdx) value

/-- End-to-end arithmetic-intensity curve of one store: math-op counting on
the value, access extraction, region walk with initial degenerate bindings,
then sampling.  `f` stands for `std::log2` (applied to the linear-space
lists), `ana` for the bound analyzer. -/
def storeCurve (f : ℤ → ℚ) (ana : AnaEnv → PExpr → ℤ × ℤ) (eleBytes : ℕ → ℤ)
    (stack : List FNode) (buf : ℕ) (sIdx : List PExpr) (value : PExpr) : List ℚ :=
  let accs := storeAccesses buf sIdx value
  let env0 : AnaEnv := stack.map (fun fr => (fr.var, fr.minE, PExpr.intImm 1))
  let r := regionLoop ana eleBytes accs stack.reverse env0
    ((floatOpsSum (mocExpr MathOps.zero value) : ℤ))
  arithCurve (r.2.2.map f) (r.2.1.map f) r.1

/-- The sampling loop emits one entry per sample index. -/
theorem sampleSteps_length (cList mList : List ℚ) :
    ∀ (isL : List ℕ) (pt : ℕ), (sampleSteps cList mList isL pt).length = isL.length
  | [], _ => rfl
  | _ :: restI, pt => by
    rw [sampleSteps]
    simpa using sampleSteps_length cList mList restI _

/-- A zero op count stays zero through the region loop. -/
theorem regionLoop_cur_zero (ana : AnaEnv → PExpr → ℤ × ℤ) (eleBytes : ℕ → ℤ)
    (accs : List (ℕ × BufAcc)) :
    ∀ (l : List FNode) (env : AnaEnv), (regionLoop ana eleBytes accs l env 0).1 = 0
  | [], _ => rfl
  | f :: rest, env => by
    rw [regionLoop]
    simpa using regionLoop_cur_zero ana eleBytes accs rest ((f.var, f.minE, f.extentE) :: env)

/-- C4 (amended): the curve always has exactly 10 entries, and it is all
zeros if the store's value has no floating-point ops or the loop stack is
empty.  (The converse direction of the claim is refuted separately.) -/
theorem storeCurve_spec (f : ℤ → ℚ) (ana : AnaEnv → PExpr → ℤ × ℤ) (eleBytes : ℕ → ℤ)
    (stack : List FNode) (buf : ℕ) (sIdx : List PExpr) (value : PExpr) :
    (storeCurve f ana eleBytes stack buf sIdx value).length = 10 ∧
    ((floatOpsSum (mocExpr MathOps.zero value) = 0 ∨ stack = []) →
      storeCurve f ana eleBytes stack buf sIdx value = List.replicate 10 0) := by
  constructor
  · unfold storeCurve arithCurve
    by_cases hc : ((regionLoop ana eleBytes (storeAccesses buf sIdx value) stack.reverse
        (stack.map fun fr => (fr.var, fr.minE, PExpr.intImm 1))
        ((floatOpsSum (mocExpr MathOps.zero value) : ℤ))).1 ≤ 0 ∨
      (((regionLoop ana eleBytes (storeAccesses buf sIdx value) stack.reverse
        (stack.map fun fr => (fr.var, fr.minE, PExpr.intImm 1))
        ((floatOpsSum (mocExpr MathOps.zero value) : ℤ))).2.2).map f).isEmpty = true)
    · simp only [hc, if_true, List.length_replicate, arithSampleN]
    · simp only [hc, if_false, List.length_map, sampleSteps_length, List.length_range,
        arithSampleN]
  · intro h
    rcases h with h | h
    · unfold storeCurve
      rw [h]
      push_cast
      rw [regionLoop_cur_zero]
      unfold arithCurve
      rw [if_pos (Or.inl (le_refl 0))]
      rfl
    · subst h
      unfold storeCurve
      simp only [List.reverse_nil, regionLoop, List.map_nil]
      unfold arithCurve
      simp only [List.isEmpty_nil, or_true, if_true]
      rfl

/-- C4 witness for the zero direction: a store of an integer constant with no
loops produces the all-zero curve. -/
theorem storeCurve_spec_witness :
    storeCurve (fun _ => 0) (fun _ _ => (0, 0)) (fun _ => 1) [] 0 [] (.intImm 0) =
      List.replicate 10 0 :=
  (storeCurve_spec (fun _ => 0) (fun _ _ => (0, 0)) (fun _ => 1) [] 0 [] (.intImm 0)).2
    (Or.inr rfl)

/-- C4 counterexample loop stack: a single loop of extent 1. -/
def c4stack : List FNode := [⟨5, .intImm 0, .intImm 1, .serial⟩]

/-- C4 counterexample store value: `A[0] + 1.0f` (one float add). -/
def c4value : PExpr := .binop .addk (.load true 1 (.cons (.intImm 0) .nil)) .floatImm

/-- Concrete bound analyzer for the counterexample: constants are bounded by
themselves (only constants are queried here). -/
def c4ana : AnaEnv → PExpr → ℤ × ℤ := fun _ e =>
  match e with
  | .intImm v => (v, v)
  | _ => (0, 0)

/-- Model of `std::log2` at the two points where the counterexample evaluates
it: `log2 1 = 0` and `log2 8 = 3`, both exact in IEEE float as well. -/
def log2AtPts : ℤ → ℚ := fun z => if z = 8 then 3 else 0

/-- C4, counterexample to the "only if" direction: a store `B[0] = A[0]+1.0`
(one float op) under a single loop of extent 1 (non-empty loop stack) yields
`compute_ops_list = [log2 1] = [0]` and `mem_bytes_list = [log2 8] = [3]`, so
every sampled curve value is `0/3 = 0`: the curve is all zeros although the
float op count is nonzero and the loop stack is non-empty. -/
theorem storeCurve_counterexample :
    floatOpsSum (mocExpr MathOps.zero c4value) = 1 ∧ c4stack ≠ [] ∧
      storeCurve log2AtPts c4ana (fun _ => 4) c4stack 0 [.intImm 0] c4value =
        List.replicate 10 0 := by
  refine ⟨by decide, by simp [c4stack], ?_⟩
  have h1 : storeCurve log2AtPts c4ana (fun _ => 4) c4stack 0 [.intImm 0] c4value =
      arithCurve [0] [3] 1 := rfl
  rw [h1]
  have hrange : List.range arithSampleN = [0, 1, 2, 3, 4, 5, 6, 7, 8, 9] := rfl
  have hadv : ∀ i : ℕ, advancePt [0] (([(0 : ℚ)].getLast?.getD 0) * ((i : ℚ) + 1) /
      (arithSampleN : ℚ)) 0 = 0 := by
    intro i
    rw [advancePt]
    have hlen0 : (0 : ℕ) < ([(0 : ℚ)]).length := by norm_num
    rw [dif_pos hlen0]
    have hx : ¬ (([(0 : ℚ)].get ⟨0, hlen0⟩) <
        ([(0 : ℚ)].getLast?.getD 0) * ((i : ℚ) + 1) / (arithSampleN : ℚ) - tolQ) := by
      simp only [List.get, List.getLast?, Option.getD_some]
      norm_num [tolQ, arithSampleN]
    rw [if_neg hx]
  unfold arithCurve
  rw [if_neg (by norm_num)]
  rw [hrange]
  simp only [sampleSteps, hadv, if_pos rfl]
  have hrep : List.replicate 10 (0 : ℚ) = [0, 0, 0, 0, 0, 0, 0, 0, 0, 0] := rfl
  rw [hrep]
  norm_num

/-- Entries of the compute-ops list are at least the (positive) initial op
count when all loop extents are at least one. -/
theorem regionLoop_ops_ge (ana : AnaEnv → PExpr → ℤ × ℤ) (eleBytes : ℕ → ℤ)
    (accs : List (ℕ × BufAcc)) :
    ∀ (l : List FNode) (env : AnaEnv) (cur : ℤ),
      (∀ fr ∈ l, 1 ≤ getLoopExtent fr.extentE) → 1 ≤ cur →
        ∀ z ∈ (regionLoop ana eleBytes accs l env cur).2.2, 1 ≤ z
  | [], _, _, _, _ => by simp [regionLoop]
  | f :: rest, env, cur, hext, hcur => by
    intro z hz
    rw [regionLoop] at hz
    simp only [List.mem_cons] at hz
    have hf : 1 ≤ getLoopExtent f.extentE := hext f (by simp)
    have hcur1 : 1 ≤ cur * getLoopExtent f.extentE := by nlinarith
    rcases hz with hz | hz
    · rw [hz]; exact hcur1
    · exact regionLoop_ops_ge ana eleBytes accs rest ((f.var, f.minE, f.extentE) :: env)
        (cur * getLoopExtent f.extentE) (fun fr hfr => hext fr (by simp [hfr])) hcur1 z hz

/-- The ops list has one entry per loop on the stack. -/
theorem regionLoop_ops_length (ana : AnaEnv → PExpr → ℤ × ℤ) (eleBytes : ℕ → ℤ)
    (accs : List (ℕ × BufAcc)) :
    ∀ (l : List FNode) (env : AnaEnv) (cur : ℤ),
      (regionLoop ana eleBytes accs l env cur).2.2.length = l.length
  | [], _, _ => rfl
  | f :: rest, env, cur => by
    rw [regionLoop]
    simpa using regionLoop_ops_length ana eleBytes accs rest _ _

/-- The pointer advance never passes an index whose entry already satisfies
the stop condition. -/
theorem advancePt_le (l : List ℚ) (x : ℚ) :
    ∀ (pt j : ℕ) (hj : j < l.length), pt ≤ j → ¬ (l.get ⟨j, hj⟩ < x - tolQ) →
      advancePt l x pt ≤ j := by
  have H : ∀ (n pt j : ℕ) (hj : j < l.length), l.length - pt ≤ n → pt ≤ j →
      ¬ (l.get ⟨j, hj⟩ < x - tolQ) → advancePt l x pt ≤ j := by
    intro n
    induction n with
    | zero =>
      intro pt j hj hn hpj _
      omega
    | succ n ih =>
      intro pt j hj hn hpj hstop
      rw [advancePt]
      by_cases h : pt < l.length
      · rw [dif_pos h]
        by_cases hlt : l.get ⟨pt, h⟩ < x - tolQ
        · rw [if_pos hlt]
          have hne : pt ≠ j := by
            rintro rfl
            exact hstop hlt
          exact ih (pt + 1) j hj (by omega) (by omega) hstop
        · rw [if_neg hlt]
          exact hpj
      · rw [dif_neg h]
        exact hpj
  exact fun pt j hj => H l.length pt j hj (by omega)

/-- During the sampling loop the threaded pointer stays at most the last
index, provided every sample target is met at the last index. -/
theorem sampleSteps_pts_le (cList mList : List ℚ) (hj : cList.length - 1 < cList.length) :
    ∀ (isL : List ℕ) (pt : ℕ), pt ≤ cList.length - 1 →
      (∀ i ∈ isL, ¬ (cList.get ⟨cList.length - 1, hj⟩ <
        cList.getLast?.getD 0 * ((i : ℚ) + 1) / (arithSampleN : ℚ) - tolQ)) →
      ∀ p ∈ (sampleSteps cList mList isL pt).map (fun q => q.1), p ≤ cList.length - 1
  | [], _, _, _ => by simp [sampleSteps]
  | i :: restI, pt, hpt, hstop => by
    intro p hp
    rw [sampleSteps] at hp
    simp only [List.map_cons, List.mem_cons] at hp
    have hpt1 : advancePt cList
        (cList.getLast?.getD 0 * ((i : ℚ) + 1) / (arithSampleN : ℚ)) pt ≤ cList.length - 1 :=
      advancePt_le cList _ pt (cList.length - 1) hj hpt (hstop i (by simp))
    rcases hp with hp | hp
    · rw [hp]; exact hpt1
    · exact sampleSteps_pts_le cList mList hj restI _ hpt1
        (fun i2 hi2 => hstop i2 (by simp [hi2])) p hp

/-- C10: under the precondition that every enclosing loop extent is at least
1 (and the float op count is positive, i.e. the sampling branch runs), every
pointer value of the curve-sampling loop stays strictly below the length of
`compute_ops_list`, so the bounds assertion `pt < compute_ops_list.size()`
holds on every iteration.  `f` stands for `log2`, non-negative on inputs at
least 1. -/
theorem curvePt_safety (f : ℤ → ℚ) (ana : AnaEnv → PExpr → ℤ × ℤ) (eleBytes : ℕ → ℤ)
    (accs : List (ℕ × BufAcc)) (stack : List FNode) (env : AnaEnv) (ops0 : ℤ)
    (mList : List ℚ)
    (hf : ∀ n : ℤ, 1 ≤ n → 0 ≤ f n) (hops : 1 ≤ ops0) (hstack : stack ≠ [])
    (hext : ∀ fr ∈ stack, 1 ≤ getLoopExtent fr.extentE) :
    ∀ p ∈ samplePtsOf ((regionLoop ana eleBytes accs stack.reverse env ops0).2.2.map f) mList,
      p < ((regionLoop ana eleBytes accs stack.reverse env ops0).2.2.map f).length := by
  have hextRev : ∀ fr ∈ stack.reverse, 1 ≤ getLoopExtent fr.extentE := by
    intro fr hfr
    exact hext fr (List.mem_reverse.mp hfr)
  have hlen : (regionLoop ana eleBytes accs stack.reverse env ops0).2.2.length = stack.length := by
    rw [regionLoop_ops_length]
    exact List.length_reverse stack
  have hlenpos : 0 < (regionLoop ana eleBytes accs stack.reverse env ops0).2.2.length := by
    rw [hlen]
    exact List.length_pos.mpr hstack
  have hone : (regionLoop ana eleBytes accs stack.reverse env ops0).2.2 ≠ [] :=
    List.ne_nil_of_length_pos hlenpos
  have hge : ∀ z ∈ (regionLoop ana eleBytes accs stack.reverse env ops0).2.2, 1 ≤ z :=
    regionLoop_ops_ge ana eleBytes accs stack.reverse env ops0 hextRev hops
  have hclenpos :
      0 < ((regionLoop ana eleBytes accs stack.reverse env ops0).2.2.map f).length := by
    rw [List.length_map]
    exact hlenpos
  have hcne : (regionLoop ana eleBytes accs stack.reverse env ops0).2.2.map f ≠ [] :=
    List.ne_nil_of_length_pos hclenpos
  have hjlt : ((regionLoop ana eleBytes accs stack.reverse env ops0).2.2.map f).length - 1 <
      ((regionLoop ana eleBytes accs stack.reverse env ops0).2.2.map f).length := by
    omega
  -- the last entry of the mapped list is f at the last ops value, which is ≥ 1
  have hLval : ((regionLoop ana eleBytes accs stack.reverse env ops0).2.2.map f).getLast? =
      some (f ((regionLoop ana eleBytes accs stack.reverse env ops0).2.2.getLast hone)) := by
    rw [List.getLast?_map, List.getLast?_eq_getLast _ hone]
    rfl
  have hgl : ((regionLoop ana eleBytes accs stack.reverse env ops0).2.2.map f).getLast hcne =
      f ((regionLoop ana eleBytes accs stack.reverse env ops0).2.2.getLast hone) := by
    have h1 := List.getLast?_eq_getLast
      ((regionLoop ana eleBytes accs stack.reverse env ops0).2.2.map f) hcne
    rw [hLval] at h1
    exact (Option.some.inj h1).symm
  have hlast_nonneg :
      0 ≤ ((regionLoop ana eleBytes accs stack.reverse env ops0).2.2.map f).getLast hcne := by
    rw [hgl]
    exact hf _ (hge _ (List.getLast_mem hone))
  have hget : ((regionLoop ana eleBytes accs stack.reverse env ops0).2.2.map f).get
      ⟨((regionLoop ana eleBytes accs stack.reverse env ops0).2.2.map f).length - 1, hjlt⟩ =
      ((regionLoop ana eleBytes accs stack.reverse env ops0).2.2.map f).getLast hcne :=
    (List.getLast_eq_get _ _).symm
  have hgetD : ((regionLoop ana eleBytes accs stack.reverse env ops0).2.2.map f).getLast?.getD 0 =
      ((regionLoop ana eleBytes accs stack.reverse env ops0).2.2.map f).getLast hcne := by
    rw [List.getLast?_eq_getLast _ hcne]
    rfl
  intro p hp
  have hstop : ∀ i ∈ List.range arithSampleN,
      ¬ (((regionLoop ana eleBytes accs stack.reverse env ops0).2.2.map f).get
          ⟨((regionLoop ana eleBytes accs stack.reverse env ops0).2.2.map f).length - 1, hjlt⟩ <
        ((regionLoop ana eleBytes accs stack.reverse env ops0).2.2.map f).getLast?.getD 0 *
          ((i : ℚ) + 1) / (arithSampleN : ℚ) - tolQ) := by
    intro i hi
    rw [hget, hgetD]
    have hi10 : (i : ℚ) + 1 ≤ (arithSampleN : ℚ) := by
      have hi4 : i + 1 ≤ arithSampleN := List.mem_range.mp hi
      exact_mod_cast hi4
    have hxle : ((regionLoop ana eleBytes accs stack.reverse env ops0).2.2.map f).getLast hcne *
        ((i : ℚ) + 1) / (arithSampleN : ℚ) ≤
        ((regionLoop ana eleBytes accs stack.reverse env ops0).2.2.map f).getLast hcne := by
      rw [div_le_iff (by norm_num [arithSampleN])]
      nlinarith
    have htolpos : (0 : ℚ) < tolQ := by norm_num [tolQ]
    intro hcon
    linarith
  have hfin := sampleSteps_pts_le ((regionLoop ana eleBytes accs stack.reverse env ops0).2.2.map f)
    mList hjlt (List.range arithSampleN) 0 (by omega) hstop p
    (by simpa [samplePtsOf] using hp)
  omega

/-- C10 witness: a single loop of extent 2, an op count of 1, and a log model
constantly zero (non-negative); the first sampled pointer is 0, below the
compute-ops list length 1, by the safety theorem applied at this input. -/
theorem curvePt_safety_witness :
    (0 : ℕ) < ((regionLoop c4ana (fun _ => 4) []
        [⟨0, .intImm 0, .intImm 2, .serial⟩].reverse [] 1).2.2.map
        (fun _ => (0 : ℚ))).length := by
  have he : ((regionLoop c4ana (fun _ => 4) []
      [⟨0, .intImm 0, .intImm 2, .serial⟩].reverse [] 1).2.2.map
      (fun _ => (0 : ℚ))) = [0] := rfl
  have hrange : List.range arithSampleN = [0, 1, 2, 3, 4, 5, 6, 7, 8, 9] := rfl
  have hadv : ∀ i : ℕ, advancePt [0] (([(0 : ℚ)].getLast?.getD 0) * ((i : ℚ) + 1) /
      (arithSampleN : ℚ)) 0 = 0 := by
    intro i
    rw [advancePt]
    have hlen0 : (0 : ℕ) < ([(0 : ℚ)]).length := by norm_num
    rw [dif_pos hlen0]
    have hx : ¬ (([(0 : ℚ)].get ⟨0, hlen0⟩) <
        ([(0 : ℚ)].getLast?.getD 0) * ((i : ℚ) + 1) / (arithSampleN : ℚ) - tolQ) := by
      simp only [List.get, List.getLast?, Option.getD_some]
      norm_num [tolQ, arithSampleN]
    rw [if_neg hx]
  have hmem : (0 : ℕ) ∈ samplePtsOf ((regionLoop c4ana (fun _ => 4) []
      [⟨0, .intImm 0, .intImm 2, .serial⟩].reverse [] 1).2.2.map
      (fun _ => (0 : ℚ))) [] := by
    rw [he]
    unfold samplePtsOf
    rw [hrange]
    simp only [sampleSteps, hadv]
    simp
  exact curvePt_safety (fun _ => (0 : ℚ)) c4ana (fun _ => 4) []
    [⟨0, .intImm 0, .intImm 2, .serial⟩] [] 1 []
    (fun _ _ => le_refl 0) (by norm_num) (by simp)
    (by intro fr hfr; simp only [List.mem_singleton] at hfr; rw [hfr]; decide) 0 hmem

/-! ## FeatureSet and the vector / name emitters -/

/-- `AnnotationPosType` of feature.cc. -/
inductive AnnPos where
  | posNone | posInnerSpatial | posMiddleSpatial | posOuterSpatial
  | posInnerReduce | posMiddleReduce | posOuterReduce | posMixed
deriving DecidableEq, Repr

/-- Integer encoding of `AnnotationPosType` (`kPosNone = 0` … `kPosMixed = 7`). -/
def AnnPos.toIdx : AnnPos → ℕ
  | .posNone => 0
  | .posInnerSpatial => 1
  | .posMiddleSpatial => 2
  | .posOuterSpatial => 3
  | .posInnerReduce => 4
  | .posMiddleReduce => 5
  | .posOuterReduce => 6
  | .posMixed => 7

/-- Integer encoding of `BufferAccessType` (`kRead = 0` … `kUnknownRW = 3`). -/
def AccType.toIdx : AccType → ℕ
  | .read => 0
  | .write => 1
  | .readWrite => 2
  | .unknownRW => 3

/-- Integer encoding of `ReuseType`. -/
def ReuType.toIdx : ReuType → ℕ
  | .loopMultipleRead => 0
  | .serialMultipleReadWrite => 1
  | .noReuse => 2

/-- `BufferAccessFeature` (the per-buffer block of a `FeatureSet`). -/
structure AccFea where
  bufferName : String
  accType : AccType
  bytes : ℚ
  uniqueBytes : ℚ
  lines : ℚ
  uniqueLines : ℚ
  reuseType : ReuType
  reuseDisIter : ℚ
  reuseDisBytes : ℚ
  reuseCt : ℚ
  bytesDRe : ℚ
  uniqueBytesDRe : ℚ
  linesDRe : ℚ
  uniqueLinesDRe : ℚ
  stride : ℚ

/-- `FeatureSet` of one buffer store. -/
structure FeatureSet where
  floatMad : ℚ
  floatAddsub : ℚ
  floatMul : ℚ
  floatDivmod : ℚ
  floatCmp : ℚ
  floatMathFunc : ℚ
  floatOtherFunc : ℚ
  intMad : ℚ
  intAddsub : ℚ
  intMul : ℚ
  intDivmod : ℚ
  intCmp : ℚ
  intMathFunc : ℚ
  intOtherFunc : ℚ
  boolOp : ℚ
  selectOp : ℚ
  vecNum : ℚ
  vecProd : ℚ
  vecLen : ℚ
  vecType : AnnPos
  unrollNum : ℚ
  unrollProd : ℚ
  unrollLen : ℚ
  unrollType : AnnPos
  parallelNum : ℚ
  parallelProd : ℚ
  parallelLen : ℚ
  parallelType : AnnPos
  isGpu : ℚ
  blockIdxXLen : ℚ
  blockIdxYLen : ℚ
  blockIdxZLen : ℚ
  threadIdxXLen : ℚ
  threadIdxYLen : ℚ
  threadIdxZLen : ℚ
  vthreadLen : ℚ
  arithIntensityCurve : List ℚ
  accessFeas : List AccFea
  allocSize : ℚ
  allocOuterProd : ℚ
  allocInnerProd : ℚ
  allocProd : ℚ
  outerProd : ℚ
  numLoops : ℚ
  autoUnrollMaxStep : ℚ

/-- One-hot block `for (i = 0; i < n; i++) push(i == idx)`. -/
def oneHot (n : ℕ) (idx : ℕ) : List ℚ :=
  (List.range n).map (fun j => if j = idx then 1 else 0)

/-- The 18 floats emitted for one buffer-access feature (3-wide access-kind
one-hot, 4 size fields, 3-wide reuse one-hot, 3 reuse scalars, 4 derived
fields, stride). -/
def emitOneAcc (slog : ℚ → ℚ) (a : AccFea) : List ℚ :=
  oneHot 3 a.accType.toIdx ++
    [slog a.bytes, slog a.uniqueBytes, slog a.lines, slog a.uniqueLines] ++
    oneHot 3 a.reuseType.toIdx ++
    [slog a.reuseDisIter, slog a.reuseDisBytes, slog a.reuseCt,
      slog a.bytesDRe, slog a.uniqueBytesDRe, slog a.linesDRe, slog a.uniqueLinesDRe,
      slog a.stride]

/-- The `std::sort` comparator lifted to its non-strict successor relation:
entry `x` may precede entry `y` iff `x.lines > y.lines`, or
`x.lines = y.lines` and `x.bytes ≥ y.bytes`. -/
def accLe (x y : AccFea) : Bool :=
  decide (y.lines < x.lines) || (decide (x.lines = y.lines) && decide (y.bytes ≤ x.bytes))

/-- The kept (sorted and truncated) access features:
`n_bufs = min(max_n_bufs, size)` of the entries sorted by
(`lines` desc, `bytes` desc). -/
def keptFeas (maxN : ℕ) (feas : List AccFea) : List AccFea :=
  (feas.mergeSort accLe).take (min maxN feas.length)

/-- The per-buffer access section of one store's vector: the kept entries'
18 floats each, then all-zero padding slots up to `max_n_bufs`. -/
def emitAccessSection (slog : ℚ → ℚ) (maxN : ℕ) (feas : List AccFea) : List ℚ :=
  (keptFeas maxN feas).flatMap (emitOneAcc slog) ++
    (List.replicate (maxN - min maxN feas.length) (List.replicate 18 (0 : ℚ))).flatten

/-- The full per-store segment of `GetPerStoreFeature`, in emission order
(compute, vec/unroll/parallel with one-hot position, GPU, curve, access
section, allocation, overall).  `slog` stands for the signed-log transform. -/
def perStoreSegment (slog : ℚ → ℚ) (maxN : ℕ) (fs : FeatureSet) : List ℚ :=
  [slog fs.floatMad, slog fs.floatAddsub, slog fs.floatMul, slog fs.floatDivmod,
    slog fs.floatCmp, slog fs.floatMathFunc, slog fs.floatOtherFunc,
    slog fs.intMad, slog fs.intAddsub, slog fs.intMul, slog fs.intDivmod,
    slog fs.intCmp, slog fs.intMathFunc, slog fs.intOtherFunc,
    slog fs.boolOp, slog fs.selectOp] ++
  ([slog fs.vecNum, slog fs.vecProd, slog fs.vecLen] ++ oneHot 8 fs.vecType.toIdx) ++
  ([slog fs.unrollNum, slog fs.unrollProd, slog fs.unrollLen] ++
    oneHot 8 fs.unrollType.toIdx) ++
  ([slog fs.parallelNum, slog fs.parallelProd, slog fs.parallelLen] ++
    oneHot 8 fs.parallelType.toIdx) ++
  [fs.isGpu] ++
  [slog fs.blockIdxXLen, slog fs.blockIdxYLen, slog fs.blockIdxZLen,
    slog fs.threadIdxXLen, slog fs.threadIdxYLen, slog fs.threadIdxZLen,
    slog fs.vthreadLen] ++
  (List.range arithSampleN).map (fun i => fs.arithIntensityCurve.getD i 0) ++
  emitAccessSection slog maxN fs.accessFeas ++
  [slog fs.allocSize, slog fs.allocProd, slog fs.allocOuterProd, slog fs.allocInnerProd] ++
  [slog fs.outerProd, slog fs.numLoops, slog fs.autoUnrollMaxStep]

/-- The 18 per-buffer names of `GetPerStoreFeatureName`. -/
def bufNames (i : ℕ) : List String :=
  let pre := "B" ++ toString i ++ "."
  [pre ++ "acc_type.kRead", pre ++ "acc_type.kWrite", pre ++ "acc_type.kReadWrite",
    pre ++ "bytes", pre ++ "unique_bytes", pre ++ "lines", pre ++ "unique_lines",
    pre ++ "reuse_type.kLoopMultipleRead", pre ++ "reuse_type.kSerialMultipleReadWrite",
    pre ++ "reuse_type.kNoReuse", pre ++ "reuse_dis_iter", pre ++ "reuse_dis_bytes",
    pre ++ "reuse_ct", pre ++ "bytes_d_reuse_ct", pre ++ "unique_bytes_d_reuse_ct",
    pre ++ "lines_d_reuse_ct", pre ++ "unique_lines_d_reuse_ct", pre ++ "stride"]

/-- `GetPerStoreFeatureName`: the parallel name sequence for one per-store
segment. -/
def featureNames (maxN : ℕ) : List String :=
  ["float_mad", "float_addsub", "float_mul", "float_divmod", "float_cmp",
    "float_mathfunc", "float_otherfunc",
    "int_mad", "int_addsub", "int_mul", "int_divmod", "int_cmp",
    "int_mathfunc", "int_otherfunc", "bool_op", "select_op",
    "vec_num", "vec_prod", "vec_len",
    "vec_type.kPosNone", "vec_type.kPosInnerSpatial", "vec_type.kPosMiddleSpatial",
    "vec_type.kPosOuterSpatial", "vec_type.kPosInnerReduce", "vec_type.kPosMiddleReduce",
    "vec_type.kPosOuterReduce", "vec_type.kPosMixed",
    "unroll_num", "unroll_prod", "unroll_len",
    "unroll_type.kPosNone", "unroll_type.kPosInnerSpatial", "unroll_type.kPosMiddleSpatial",
    "unroll_type.kPosOuterSpatial", "unroll_type.kPosInnerReduce",
    "unroll_type.kPosMiddleReduce", "unroll_type.kPosOuterReduce", "unroll_type.kPosMixed",
    "parallel_num", "parallel_prod", "parallel_len",
    "parallel_type.kPosNone", "parallel_type.kPosInnerSpatial",
    "parallel_type.kPosMiddleSpatial", "parallel_type.kPosOuterSpatial",
    "parallel_type.kPosInnerReduce", "parallel_type.kPosMiddleReduce",
    "parallel_type.kPosOuterReduce", "parallel_type.kPosMixed",
    "is_gpu", "blockIdx_x_len", "blockIdx_y_len", "blockIdx_z_len",
    "threadIdx_x_len", "threadIdx_y_len", "threadIdx_z_len", "vthread_len"] ++
  (List.range arithSampleN).map (fun i => "arith_intensity_curve_" ++ toString i) ++
  (List.range maxN).flatMap bufNames ++
  ["alloc_size", "alloc_prod", "alloc_outer_prod", "alloc_inner_prod"] ++
  ["outer_prod", "num_loops", "auto_unroll_max_step"]

/-- A flat map by a constant-length function multiplies the length. -/
theorem length_flatMap_const {α β : Type} (g : α → List β) (n : ℕ)
    (hg : ∀ x, (g x).length = n) : ∀ l : List α, (l.flatMap g).length = n * l.length
  | [] => by simp
  | x :: rest => by
    rw [List.flatMap_cons, List.length_append, hg, length_flatMap_const g n hg rest,
      List.length_cons]
    ring

/-- Flattening `k` copies of an `n`-length list yields `k * n` elements. -/
theorem length_flatten_replicate (n : ℕ) (l : List ℚ) (hl : l.length = n) :
    ∀ k : ℕ, (List.replicate k l).flatten.length = k * n
  | 0 => by simp
  | k + 1 => by
    rw [List.replicate_succ, List.flatten_cons, List.length_append, hl,
      length_flatten_replicate n l hl k]
    ring

/-- Each kept access entry contributes exactly 18 floats. -/
theorem emitOneAcc_length (slog : ℚ → ℚ) (a : AccFea) : (emitOneAcc slog a).length = 18 := by
  simp [emitOneAcc, oneHot]

/-- The kept list has `min max_n_bufs size` entries. -/
theorem keptFeas_length (maxN : ℕ) (feas : List AccFea) :
    (keptFeas maxN feas).length = min maxN feas.length := by
  unfold keptFeas
  rw [List.length_take]
  have hperm : (feas.mergeSort accLe).length = feas.length :=
    (List.mergeSort_perm feas accLe).length_eq
  rw [hperm]
  omega

/-- The emitted access section has exactly `max_n_bufs · 18` entries. -/
theorem emitAccessSection_length (slog : ℚ → ℚ) (maxN : ℕ) (feas : List AccFea) :
    (emitAccessSection slog maxN feas).length = maxN * 18 := by
  unfold emitAccessSection
  rw [List.length_append, length_flatMap_const (emitOneAcc slog) 18 (emitOneAcc_length slog),
    keptFeas_length, length_flatten_replicate 18 _ (by simp)]
  have : min maxN feas.length ≤ maxN := min_le_left _ _
  omega

/-- C1 counterexample feature set: everything zero / empty. -/
def fsDefault : FeatureSet :=
  ⟨0, 0, 0, 0, 0, 0, 0, 0, 0, 0, 0, 0, 0, 0, 0, 0,
    0, 0, 0, .posNone, 0, 0, 0, .posNone, 0, 0, 0, .posNone,
    0, 0, 0, 0, 0, 0, 0, 0, [], [], 0, 0, 0, 0, 0, 0, 0⟩

/-- C1, counterexample: at `max_n_bufs = 0` one per-store segment has 74
entries, not the claimed `L(0) = 65 + 0·18 + 7 = 72`: the fixed section
before the curve holds 57 values (16 compute + 3·11 vec/unroll/parallel +
1 is_gpu + 7 GPU lengths), not 55. -/
theorem featureLength_counterexample :
    (perStoreSegment id 0 fsDefault).length = 74 ∧ (74 : ℕ) ≠ 65 + 0 * 18 + 7 := by
  refine ⟨by decide, by decide⟩

/-- C1 (amended): for every `max_n_bufs` the per-store segment emitted by
`GetPerStoreFeature` has length exactly `67 + max_n_bufs·18 + 7`, and the
name sequence of `GetPerStoreFeatureName` has the same length. -/
theorem featureLength_spec (slog : ℚ → ℚ) (maxN : ℕ) (fs : FeatureSet) :
    (perStoreSegment slog maxN fs).length = 67 + maxN * 18 + 7 ∧
    (featureNames maxN).length = 67 + maxN * 18 + 7 := by
  constructor
  · unfold perStoreSegment
    simp only [List.length_append, List.length_cons, List.length_nil, List.length_map,
      List.length_range, oneHot, emitAccessSection_length]
    norm_num [arithSampleN]
    try ring
  · unfold featureNames
    simp only [List.length_append, List.length_cons, List.length_nil, List.length_map,
      List.length_range, length_flatMap_const bufNames 18 (fun i => rfl)]
    norm_num [arithSampleN]
    try ring

/-- The comparator successor relation is transitive. -/
theorem accLe_trans : ∀ a b c : AccFea, accLe a b = true → accLe b c = true →
    accLe a c = true := by
  intro a b c hab hbc
  simp only [accLe, Bool.or_eq_true, Bool.and_eq_true, decide_eq_true_eq] at hab hbc ⊢
  rcases hab with h1 | h1 <;> rcases hbc with h2 | h2
  · exact Or.inl (lt_trans h2 h1)
  · exact Or.inl (h2.1 ▸ h1)
  · refine Or.inl ?_
    rw [h1.1]
    exact h2
  · exact Or.inr ⟨h1.1.trans h2.1, le_trans h2.2 h1.2⟩

/-- The comparator successor relation is total. -/
theorem accLe_total : ∀ a b : AccFea, (accLe a b || accLe b a) = true := by
  intro a b
  simp only [accLe, Bool.or_eq_true, Bool.and_eq_true, decide_eq_true_eq]
  rcases lt_trichotomy a.lines b.lines with h | h | h
  · exact Or.inr (Or.inl h)
  · rcases le_total b.bytes a.bytes with hb | hb
    · exact Or.inl (Or.inr ⟨h, hb⟩)
    · exact Or.inr (Or.inr ⟨h.symm, hb⟩)
  · exact Or.inl (Or.inl h)

/-- C7 (confirmed): the access section has exactly `max_n_bufs` slots of 18
fields; the kept entries are sorted by `lines` descending with ties broken by
`bytes` descending (truncated to `min(max_n_bufs, size)`); everything after
the kept entries is the all-zero padding. -/
theorem accessSection_spec (slog : ℚ → ℚ) (maxN : ℕ) (feas : List AccFea) :
    (emitAccessSection slog maxN feas).length = maxN * 18 ∧
    List.Pairwise (fun a b => accLe a b = true) (keptFeas maxN feas) ∧
    (emitAccessSection slog maxN feas).drop (18 * min maxN feas.length) =
      (List.replicate (maxN - min maxN feas.length) (List.replicate 18 (0 : ℚ))).flatten ∧
    ∀ x ∈ (emitAccessSection slog maxN feas).drop (18 * min maxN feas.length), x = 0 := by
  have hsorted : List.Pairwise (fun a b => accLe a b = true) (feas.mergeSort accLe) :=
    List.sorted_mergeSort (fun a b c => accLe_trans a b c) accLe_total feas
  have hA : ((keptFeas maxN feas).flatMap (emitOneAcc slog)).length =
      18 * min maxN feas.length := by
    rw [length_flatMap_const (emitOneAcc slog) 18 (emitOneAcc_length slog), keptFeas_length]
  have hdrop : (emitAccessSection slog maxN feas).drop (18 * min maxN feas.length) =
      (List.replicate (maxN - min maxN feas.length) (List.replicate 18 (0 : ℚ))).flatten := by
    unfold emitAccessSection
    rw [← hA, List.drop_left]
  refine ⟨emitAccessSection_length slog maxN feas, ?_, hdrop, ?_⟩
  · exact List.Pairwise.sublist (List.take_sublist _ _) hsorted
  · intro x hx
    rw [hdrop] at hx
    rcases List.mem_flatten.mp hx with ⟨l, hl, hxl⟩
    have hl0 : l = List.replicate 18 (0 : ℚ) := List.eq_of_mem_replicate hl
    rw [hl0] at hxl
    exact List.eq_of_mem_replicate hxl

/-- C7 witness: at `max_n_bufs = 1` with no real entries the section is one
all-zero slot of 18 fields, and the spec applied there gives the length and a
zero padding element. -/
theorem accessSection_spec_witness :
    (emitAccessSection id 1 []).length = 1 * 18 ∧ (0 : ℚ) = 0 :=
  ⟨(accessSection_spec id 1 []).1, (accessSection_spec id 1 []).2.2.2 0 (by decide)⟩

/-! ## The statement walk of PerStoreFeatureExtractor -/

/-- GPU thread axes accepted by the `thread_extent` attribute handler. -/
inductive ThreadAx where
  | blockX | blockY | blockZ | threadX | threadY | threadZ
deriving DecidableEq, Repr

/-- Shallow embedding of the statements the extractor dispatches on:
buffer stores, loops, the three attribute scopes it recognizes (thread
extent, virtual thread, auto-unroll pragma; the attribute values are the
integers `GetIntImm` extracts), buffer realize, sequencing. -/
inductive Stm where
  | store (buf : ℕ) (value : PExpr) (indices : List PExpr)
  | sfor (f : FNode) (body : Stm)
  | attrThread (ax : ThreadAx) (varId : ℕ) (extent : ℤ) (body : Stm)
  | attrVThread (varId : ℕ) (extent : ℤ) (body : Stm)
  | attrUnroll (value : ℤ) (body : Stm)
  | attrOther (body : Stm)
  | realize (buf : ℕ) (body : Stm)
  | seq (a b : Stm)
  | nop

/-- `buffer_features[b]`-style key insertion: a `std::unordered_map`
`operator[]` creates the entry on first touch and leaves it in place after. -/
def touchKey (ks : List ℕ) (b : ℕ) : List ℕ :=
  if b ∈ ks then ks else ks ++ [b]

/-- The set of `buffer_features` keys after the walk (insertion-ordered): a
store touches its destination's entry; a `BufferRealize` also touches its
buffer's entry (after visiting its body, as the visitor recurses first). -/
def collectFeatureKeys : Stm → List ℕ → List ℕ
  | .store b _ _, ks => touchKey ks b
  | .sfor _ body, ks => collectFeatureKeys body ks
  | .attrThread _ _ _ body, ks => collectFeatureKeys body ks
  | .attrVThread _ _ body, ks => collectFeatureKeys body ks
  | .attrUnroll _ body, ks => collectFeatureKeys body ks
  | .attrOther body, ks => collectFeatureKeys body ks
  | .realize b body, ks => touchKey (collectFeatureKeys body ks) b
  | .seq a b, ks => collectFeatureKeys b (collectFeatureKeys a ks)
  | .nop, ks => ks

/-- The buffers touched (stores and realizes) in visit order. -/
def storeRealizeTouches : Stm → List ℕ
  | .store b _ _ => [b]
  | .sfor _ body => storeRealizeTouches body
  | .attrThread _ _ _ body => storeRealizeTouches body
  | .attrVThread _ _ body => storeRealizeTouches body
  | .attrUnroll _ body => storeRealizeTouches body
  | .attrOther body => storeRealizeTouches body
  | .realize b body => storeRealizeTouches body ++ [b]
  | .seq a b => storeRealizeTouches a ++ storeRealizeTouches b
  | .nop => []

/-- Number of `BufferStore` statements visited. -/
def countStores : Stm → ℕ
  | .store _ _ _ => 1
  | .sfor _ body => countStores body
  | .attrThread _ _ _ body => countStores body
  | .attrVThread _ _ body => countStores body
  | .attrUnroll _ body => countStores body
  | .attrOther body => countStores body
  | .realize _ body => countStores body
  | .seq a b => countStores a + countStores b
  | .nop => 0

/-- The key walk is the fold of single-key touches over the touch list. -/
theorem collectFeatureKeys_eq_foldl :
    ∀ (s : Stm) (ks : List ℕ),
      collectFeatureKeys s ks = (storeRealizeTouches s).foldl touchKey ks
  | .store b _ _, ks => rfl
  | .sfor _ body, ks => collectFeatureKeys_eq_foldl body ks
  | .attrThread _ _ _ body, ks => collectFeatureKeys_eq_foldl body ks
  | .attrVThread _ _ body, ks => collectFeatureKeys_eq_foldl body ks
  | .attrUnroll _ body, ks => collectFeatureKeys_eq_foldl body ks
  | .attrOther body, ks => collectFeatureKeys_eq_foldl body ks
  | .realize b body, ks => by
    rw [collectFeatureKeys, storeRealizeTouches, List.foldl_append,
      collectFeatureKeys_eq_foldl body ks]
    rfl
  | .seq a b, ks => by
    rw [collectFeatureKeys, storeRealizeTouches, List.foldl_append,
      collectFeatureKeys_eq_foldl a ks, collectFeatureKeys_eq_foldl b]
  | .nop, ks => rfl

/-- A key touch keeps the key list duplicate-free. -/
theorem touchKey_nodup (ks : List ℕ) (b : ℕ) (h : ks.Nodup) : (touchKey ks b).Nodup := by
  unfold touchKey
  by_cases hb : b ∈ ks
  · rw [if_pos hb]; exact h
  · rw [if_neg hb]
    rw [List.nodup_append]
    refine ⟨h, List.nodup_singleton b, ?_⟩
    intro a ha hab
    rcases List.mem_singleton.mp hab with rfl
    exact hb ha

/-- A key touch inserts the key into the key set. -/
theorem touchKey_toFinset (ks : List ℕ) (b : ℕ) :
    (touchKey ks b).toFinset = insert b ks.toFinset := by
  unfold touchKey
  by_cases hb : b ∈ ks
  · rw [if_pos hb]
    exact (Finset.insert_eq_self.mpr (List.mem_toFinset.mpr hb)).symm
  · rw [if_neg hb]
    simp [List.toFinset_append, Finset.insert_eq, Finset.union_comm]

/-- Folding touches preserves duplicate-freeness and unions in the touched
keys. -/
theorem foldl_touchKey_spec :
    ∀ (l : List ℕ) (ks : List ℕ), ks.Nodup →
      (l.foldl touchKey ks).Nodup ∧
        (l.foldl touchKey ks).toFinset = ks.toFinset ∪ l.toFinset
  | [], ks, h => ⟨h, by simp⟩
  | b :: rest, ks, h => by
    have hstep := foldl_touchKey_spec rest (touchKey ks b) (touchKey_nodup ks b h)
    refine ⟨hstep.1, ?_⟩
    rw [List.foldl_cons, hstep.2, touchKey_toFinset]
    simp [Finset.insert_union, Finset.union_insert, List.toFinset_cons]

/-- C3 counterexample statement: two stores to the same buffer. -/
def c3stm : Stm :=
  .seq (.store 0 .floatImm [.intImm 0]) (.store 0 .floatImm [.intImm 0])

/-- C3, counterexample: with two stores targeting the same buffer the walk
creates a single `buffer_features` entry, so the output carries one per-store
feature segment although two stores were visited — the claimed one vector per
store fails. -/
theorem featureCount_counterexample :
    (collectFeatureKeys c3stm []).length = 1 ∧ countStores c3stm = 2 ∧ (1 : ℕ) ≠ 2 := by
  refine ⟨by decide, by decide, by decide⟩

/-- C3 (amended): the output contains exactly one feature segment per
distinct buffer touched by a store or a buffer realize (last write wins for
repeated stores); the emission order is the hash map's iteration order, which
is not in general the store encounter order. -/
theorem featureCount_spec (s : Stm) :
    (collectFeatureKeys s []).length = (storeRealizeTouches s).toFinset.card := by
  rw [collectFeatureKeys_eq_foldl]
  have hM := foldl_touchKey_spec (storeRealizeTouches s) [] (by simp)
  have hcard := List.toFinset_card_of_nodup hM.1
  rw [← hcard, hM.2]
  simp

/-- The `outer_loop_prod` walk: multiplies on loop entry (including the
synthetic parallel frames of `thread_extent` / `virtual_thread` scopes),
divides on exit, and records its value at each store, in visit order. -/
def walkProd : Stm → ℚ → ℚ × List ℚ
  | .store _ _ _, p => (p, [p])
  | .sfor f body, p =>
    let e : ℚ := (getLoopExtent f.extentE : ℚ)
    let r := walkProd body (p * e)
    (r.1 / e, r.2)
  | .attrThread _ _ ext body, p =>
    let e : ℚ := (ext : ℚ)
    let r := walkProd body (p * e)
    (r.1 / e, r.2)
  | .attrVThread _ ext body, p =>
    let e : ℚ := (ext : ℚ)
    let r := walkProd body (p * e)
    (r.1 / e, r.2)
  | .attrUnroll _ body, p => walkProd body p
  | .attrOther body, p => walkProd body p
  | .realize _ body, p => walkProd body p
  | .seq a b, p =>
    let ra := walkProd a p
    let rb := walkProd b ra.1
    (rb.1, ra.2 ++ rb.2)
  | .nop, p => (p, [])

/-- The per-store products of enclosing frame extents (the invariant's
right-hand side): each store's recorded value should be the incoming product
multiplied by all enclosing loop / thread extents. -/
def specStoreProds : Stm → ℚ → List ℚ
  | .store _ _ _, p => [p]
  | .sfor f body, p => specStoreProds body (p * (getLoopExtent f.extentE : ℚ))
  | .attrThread _ _ ext body, p => specStoreProds body (p * (ext : ℚ))
  | .attrVThread _ ext body, p => specStoreProds body (p * (ext : ℚ))
  | .attrUnroll _ body, p => specStoreProds body p
  | .attrOther body, p => specStoreProds body p
  | .realize _ body, p => specStoreProds body p
  | .seq a b, p => specStoreProds a p ++ specStoreProds b p
  | .nop, _ => []

/-- All loop extents and thread / virtual-thread extents in the statement are
nonzero. -/
def extentsNonzeroB : Stm → Bool
  | .store _ _ _ => true
  | .sfor f body => decide (getLoopExtent f.extentE ≠ 0) && extentsNonzeroB body
  | .attrThread _ _ ext body => decide (ext ≠ 0) && extentsNonzeroB body
  | .attrVThread _ ext body => decide (ext ≠ 0) && extentsNonzeroB body
  | .attrUnroll _ body => extentsNonzeroB body
  | .attrOther body => extentsNonzeroB body
  | .realize _ body => extentsNonzeroB body
  | .seq a b => extentsNonzeroB a && extentsNonzeroB b
  | .nop => true

/-- C8, counterexample: a loop with constant extent 0 multiplies
`outer_loop_prod` by 0 and the restoring division cannot recover the old
value (`0/0`; `NaN` in the float original), so after the full walk the
product is not the initial 1. -/
theorem walkProd_counterexample :
    (walkProd (.sfor ⟨0, .intImm 0, .intImm 0, .serial⟩ .nop) 1).1 = 0 ∧ (0 : ℚ) ≠ 1 := by
  constructor
  · simp [walkProd, getLoopExtent]
  · norm_num

/-- C8 (amended): provided every constant loop extent and every
thread-extent / virtual-thread extent is nonzero (and idealizing the float
product as exact rational arithmetic), the product recorded at each store
equals the incoming product times the extents of all currently-pushed frames
— including the synthetic parallel frames — and the walk restores the
initial value exactly. -/
theorem walkProd_spec :
    ∀ (s : Stm) (p : ℚ), extentsNonzeroB s = true →
      (walkProd s p).1 = p ∧ (walkProd s p).2 = specStoreProds s p
  | .store _ _ _, p, _ => ⟨rfl, rfl⟩
  | .sfor f body, p, h => by
    simp only [extentsNonzeroB, Bool.and_eq_true, decide_eq_true_eq] at h
    have hne : ((getLoopExtent f.extentE : ℤ) : ℚ) ≠ 0 := Int.cast_ne_zero.mpr h.1
    have hb := walkProd_spec body (p * (getLoopExtent f.extentE : ℚ)) h.2
    refine ⟨?_, ?_⟩
    · show (walkProd body (p * (getLoopExtent f.extentE : ℚ))).1 /
        (getLoopExtent f.extentE : ℚ) = p
      rw [hb.1]
      exact mul_div_cancel_right₀ p hne
    · show (walkProd body (p * (getLoopExtent f.extentE : ℚ))).2 =
        specStoreProds body (p * (getLoopExtent f.extentE : ℚ))
      exact hb.2
  | .attrThread _ _ ext body, p, h => by
    simp only [extentsNonzeroB, Bool.and_eq_true, decide_eq_true_eq] at h
    have hne : ((ext : ℤ) : ℚ) ≠ 0 := Int.cast_ne_zero.mpr h.1
    have hb := walkProd_spec body (p * (ext : ℚ)) h.2
    refine ⟨?_, ?_⟩
    · show (walkProd body (p * (ext : ℚ))).1 / (ext : ℚ) = p
      rw [hb.1]
      exact mul_div_cancel_right₀ p hne
    · show (walkProd body (p * (ext : ℚ))).2 = specStoreProds body (p * (ext : ℚ))
      exact hb.2
  | .attrVThread _ ext body, p, h => by
    simp only [extentsNonzeroB, Bool.and_eq_true, decide_eq_true_eq] at h
    have hne : ((ext : ℤ) : ℚ) ≠ 0 := Int.cast_ne_zero.mpr h.1
    have hb := walkProd_spec body (p * (ext : ℚ)) h.2
    refine ⟨?_, ?_⟩
    · show (walkProd body (p * (ext : ℚ))).1 / (ext : ℚ) = p
      rw [hb.1]
      exact mul_div_cancel_right₀ p hne
    · show (walkProd body (p * (ext : ℚ))).2 = specStoreProds body (p * (ext : ℚ))
      exact hb.2
  | .attrUnroll _ body, p, h => walkProd_spec body p h
  | .attrOther body, p, h => walkProd_spec body p h
  | .realize _ body, p, h => walkProd_spec body p h
  | .seq a b, p, h => by
    simp only [extentsNonzeroB, Bool.and_eq_true] at h
    have ha := walkProd_spec a p h.1
    have hb := walkProd_spec b (walkProd a p).1 h.2
    rw [ha.1] at hb
    constructor
    · show (walkProd b (walkProd a p).1).1 = p
      rw [ha.1, hb.1]
    · show (walkProd a p).2 ++ (walkProd b (walkProd a p).1).2 =
        specStoreProds a p ++ specStoreProds b p
      rw [ha.1, ha.2, hb.2]
  | .nop, p, _ => ⟨rfl, rfl⟩

/-- C8 witness: the spec applied to a store under one loop of extent 4
starting at product 1. -/
theorem walkProd_spec_witness :
    (walkProd (.sfor ⟨0, .intImm 0, .intImm 4, .serial⟩ (.store 0 .floatImm [])) 1).1 = 1 ∧
      (walkProd (.sfor ⟨0, .intImm 0, .intImm 4, .serial⟩ (.store 0 .floatImm [])) 1).2 =
        specStoreProds (.sfor ⟨0, .intImm 0, .intImm 4, .serial⟩ (.store 0 .floatImm [])) 1 :=
  walkProd_spec (.sfor ⟨0, .intImm 0, .intImm 4, .serial⟩ (.store 0 .floatImm [])) 1 (by decide)

end TvmFeat
